import Mathlib

/-!
Verification of the uBlockUnified repository's core logic against its
natural-language specification.

Rules are Python strings; we embed them as `List Char` (`Str`).  Every
definition in the `UBlock` namespace is a direct translation of a function
in the repository's source (`src/src/rule_optimizer.py`,
`src/rule_converter.py`, `src/src/database.py`); regular expressions are
translated into explicit scanning functions that reproduce Python `re`
semantics (leftmost non-overlapping substitution, greedy quantifiers,
`$` matching at the end of the string or just before a final newline,
`.` not matching a newline).  Definitions whose doc comment says
"Spec-side" are instead written from the specification's words, for
comparison with the code.
-/

set_option maxRecDepth 4000

namespace UBlock

/-- Rules are Python strings, embedded as lists of characters. -/
abbrev Str := List Char

/-- Python's `\s` class, which coincides with the `str.isspace` /
`str.strip()` whitespace table of CPython: tab through carriage return
(U+0009–U+000D), the ASCII separators FS/GS/RS/US (U+001C–U+001F), space,
next line (U+0085), no-break space (U+00A0), Ogham space mark (U+1680),
the typographic spaces U+2000–U+200A, line separator (U+2028), paragraph
separator (U+2029), narrow no-break space (U+202F), medium mathematical
space (U+205F) and ideographic space (U+3000). -/
def pyIsSpace (c : Char) : Bool :=
  (9 ≤ c.toNat && c.toNat ≤ 13) || c = ' ' ||
  (28 ≤ c.toNat && c.toNat ≤ 31) || c.toNat = 133 || c.toNat = 160 ||
  c.toNat = 5760 || (8192 ≤ c.toNat && c.toNat ≤ 8202) ||
  c.toNat = 8232 || c.toNat = 8233 || c.toNat = 8239 || c.toNat = 8287 ||
  c.toNat = 12288

/-- The character class `[,\^]` of the `duplicate_separator` pattern in
`RuleOptimizer.__init__`. -/
def sepC (c : Char) : Bool := c = ',' || c = '^'

/-- `re.compile(r'^!.*').match(rule)` succeeds exactly when the rule starts
with `!` (the `comment` pattern). -/
def isComment (r : Str) : Bool :=
  match r with
  | '!' :: _ => true
  | _ => false

/-- `re.compile(r'^\s*$').match(rule)` succeeds exactly when every character
of the rule is whitespace (the `empty` pattern). -/
def isEmptyLine (r : Str) : Bool := r.all pyIsSpace

/-- `re.compile(r'[^\x00-\x7F]').search(rule)`: the rule contains a
non-ASCII character (the `invalid` pattern). -/
def hasInvalid (r : Str) : Bool := r.any (fun c => decide (127 < c.toNat))

/-- `re.sub(r'\s+$', '', rule)`: remove the trailing run of whitespace
(the `whitespace` pattern). -/
def rstripSpace (r : Str) : Str := ((r.reverse).dropWhile pyIsSpace).reverse

/-- Python `str.strip()` on ASCII text. -/
def stripSpace (r : Str) : Str := rstripSpace (r.dropWhile pyIsSpace)

/-- `re.sub(r'\^+', '^', rule)`: each maximal run of `^` collapses to a
single `^` (the `duplicate_caret` pattern).  Dropping the first of two
adjacent carets keeps one caret per run. -/
def ccar : Str → Str
  | [] => []
  | [a] => [a]
  | a :: b :: rest =>
    if a = '^' ∧ b = '^' then ccar (b :: rest) else a :: ccar (b :: rest)

/-- `re.sub(r'\*+', '*', rule)`: each maximal run of `*` collapses to a
single `*` (the `duplicate_asterisk` pattern). -/
def cast : Str → Str
  | [] => []
  | [a] => [a]
  | a :: b :: rest =>
    if a = '*' ∧ b = '*' then cast (b :: rest) else a :: cast (b :: rest)

/-- Whether a string starts with a `[,\^]` character. -/
def headSep : Str → Bool
  | [] => false
  | c :: _ => sepC c

/-- Scanner for `re.sub(r'[,\^]{2,}', ',', rule)`.  The flag records that we
are inside a matched run whose `,` replacement is already emitted, so the
remaining run characters are consumed silently. -/
def csepGo : Bool → Str → Str
  | _, [] => []
  | true, a :: rest =>
    if sepC a then csepGo true rest
    else a :: csepGo false rest
  | false, a :: rest =>
    if sepC a && headSep rest then ',' :: csepGo true rest
    else a :: csepGo false rest

/-- `re.sub(r'[,\^]{2,}', ',', rule)`: each maximal run of two or more
characters from `[,\^]` is replaced by a single `,` (the
`duplicate_separator` pattern). -/
def csep (r : Str) : Str := csepGo false r

/-- For the regex `\|\|([^/]+)\*\.` at a `||`: the greedy group `[^/]+`
backtracks to the rightmost `*.` inside the maximal slash-free run, with at
least one character captured before it.  `run` is that slash-free run; the
result is the index of the chosen `*`. -/
def findLastStar (run : Str) : Option Nat :=
  (List.range run.length).reverse.find? (fun i =>
    decide (1 ≤ i) && run.getD i ' ' = '*' && run.getD (i + 1) ' ' = '.')

/-- Scanner for `re.sub(r'\|\|([^/]+)\*\.', r'||\1.', rule)` in
`RuleOptimizer._optimize_domain_rule`.  At each `||` the match, if any,
keeps the captured group and the dot and drops the `*`; on failure no
overlapping match can start at the second bar (the shifted group would need
a `*.` even further right), so scanning resumes after the two bars.  Fueled
with the input length to keep the recursion structural. -/
def domainSub1F : Nat → Str → Str
  | 0, s => s
  | _ + 1, [] => []
  | fuel + 1, c :: rest =>
    if c = '|' ∧ rest.head? = some '|' then
      match findLastStar (rest.tail.takeWhile (fun x => x ≠ '/')) with
      | some i =>
        '|' :: '|' :: ((rest.tail.takeWhile (fun x => x ≠ '/')).take i ++
          '.' :: domainSub1F fuel (rest.tail.drop (i + 2)))
      | none => '|' :: '|' :: domainSub1F fuel rest.tail
    else c :: domainSub1F fuel rest

/-- `re.sub(r'\|\|([^/]+)\*\.', r'||\1.', rule)`. -/
def domainSub1 (r : Str) : Str := domainSub1F r.length r

/-- `re.sub(r'\*\.[a-z]', lambda m: m.group()[2:], rule)`: each occurrence
of `*.` followed by an ASCII lowercase letter is replaced by that letter.
After a failed attempt at a `*`, no match can start at the following `.`,
so scanning resumes at the next character. -/
def domainSub2 : Str → Str
  | '*' :: '.' :: c :: rest =>
    if 'a' ≤ c ∧ c ≤ 'z' then c :: domainSub2 rest
    else '*' :: '.' :: domainSub2 (c :: rest)
  | c :: rest => c :: domainSub2 rest
  | [] => []

/-- `RuleOptimizer._optimize_domain_rule`: the two substitutions above,
in source order. -/
def optimize_domain_rule (r : Str) : Str := domainSub2 (domainSub1 r)

/-- `rule.split('##', 1)`: split at the first occurrence of `##`, or `none`
when `##` does not occur (in which case the Python call raises and the
optimizer turns it into a `RuleError`; the call site guards with
`'##' in rule`, so that path is unreachable). -/
def splitHashHash : Str → Option (Str × Str)
  | [] => none
  | c :: rest =>
    if c = '#' ∧ rest.head? = some '#' then some ([], rest.tail)
    else (splitHashHash rest).map (fun p => (c :: p.1, p.2))

/-- Scanner for `re.sub(r'\s*>\s*', '>', selector)`.  In the normal state,
`buf` holds (reversed) a pending whitespace run that is discarded if a `>`
follows and flushed verbatim otherwise; after a `>` the following
whitespace run is consumed (the greedy trailing `\s*`). -/
def gtGo : Bool → Str → Str → Str
  | _, buf, [] => buf.reverse
  | true, _, c :: rest =>
    if pyIsSpace c then gtGo true [] rest
    else if c = '>' then '>' :: gtGo true [] rest
    else c :: gtGo false [] rest
  | false, buf, c :: rest =>
    if pyIsSpace c then gtGo false (c :: buf) rest
    else if c = '>' then '>' :: gtGo true [] rest
    else buf.reverse ++ c :: gtGo false [] rest

/-- `re.sub(r'\s*>\s*', '>', selector)`: whitespace around each `>` is
removed. -/
def gtSub (r : Str) : Str := gtGo false [] r

/-- Scanner for `re.sub(r'\s+', ' ', selector)`: each maximal whitespace
run becomes a single space; the flag records being inside a run whose
space is already emitted. -/
def wsGo : Bool → Str → Str
  | _, [] => []
  | true, c :: rest =>
    if pyIsSpace c then wsGo true rest else c :: wsGo false rest
  | false, c :: rest =>
    if pyIsSpace c then ' ' :: wsGo true rest else c :: wsGo false rest

/-- `re.sub(r'\s+', ' ', selector)`. -/
def wsSub (r : Str) : Str := wsGo false r

/-- `RuleOptimizer._optimize_element_hiding_rule`: split at the first `##`,
normalise the selector (strip whitespace around `>`, collapse whitespace
runs, strip the ends), and reconstruct.  `f"{domains}##{selector}"` and
`f"##{selector}"` produce the same string when `domains` is empty, so the
final conditional collapses.  The `none` branch is the unreachable
`ValueError → RuleError` path (the caller guards with `'##' in rule`). -/
def optimize_element_hiding_rule (r : Str) : Str :=
  match splitHashHash r with
  | some (domains, selector) =>
    domains ++ '#' :: '#' :: stripSpace (wsSub (gtSub selector))
  | none => r

/-- Whether a rule starts with `||` (`rule.startswith('||')`). -/
def startsBB (l : Str) : Bool :=
  l.head? = some '|' && l.tail.head? = some '|'

/-- The substitution pipeline of `RuleOptimizer._optimize_rule` after the
comment/empty/invalid checks: strip trailing whitespace, collapse caret,
asterisk and separator runs, then apply the domain or element-hiding
optimisation depending on the (rewritten) rule's shape. -/
def pipeRule (rule : Str) : Str :=
  if startsBB (csep (cast (ccar (rstripSpace rule)))) then
    optimize_domain_rule (csep (cast (ccar (rstripSpace rule))))
  else if (splitHashHash (csep (cast (ccar (rstripSpace rule))))).isSome then
    optimize_element_hiding_rule (csep (cast (ccar (rstripSpace rule))))
  else csep (cast (ccar (rstripSpace rule)))

/-- `RuleOptimizer._optimize_rule`.  `.error ()` models raising
`RuleError`, `.ok none` models returning `None` (rule discarded),
`.ok (some r)` the optimised rule. -/
def optimize_rule (rule : Str) : Except Unit (Option Str) :=
  if isComment rule || isEmptyLine rule then .ok none
  else if hasInvalid rule then .error ()
  else .ok (if pipeRule rule = [] then none else some (pipeRule rule))

/-- The accumulation loop of `RuleOptimizer.optimize_rules`: `seen` is the
`self.optimized_rules` set, the first component the `optimized` list, the
second the number of `RuleError` warnings handed to the error handler. -/
def optRulesGo : List Str → List Str → (List Str × Nat)
  | [], _ => ([], 0)
  | r :: rs, seen =>
    match optimize_rule r with
    | .error _ =>
      let p := optRulesGo rs seen
      (p.1, p.2 + 1)
    | .ok none => optRulesGo rs seen
    | .ok (some r') =>
      if r' ∈ seen then optRulesGo rs seen
      else
        let p := optRulesGo rs (r' :: seen)
        (r' :: p.1, p.2)

/-- `RuleOptimizer.optimize_rules`: per-rule optimisation, exact-text
deduplication via the `optimized_rules` set (cleared on entry), warnings on
`RuleError`. -/
def optimize_rules (rules : List Str) : List Str := (optRulesGo rules []).1

/-- Number of `RuleError` warnings produced by one `optimize_rules` run. -/
def optimizeWarnings (rules : List Str) : Nat := (optRulesGo rules []).2

/-- Python `needle in rule` substring test. -/
def hasSub (needle : Str) : Str → Bool
  | [] => needle.isEmpty
  | c :: tail => needle.isPrefixOf (c :: tail) || hasSub needle tail

/-- Python `rule.startswith(p)`. -/
def startsWithStr (p r : Str) : Bool := p.isPrefixOf r

/-- Python `rule.endswith(p)`. -/
def endsWithStr (p r : Str) : Bool := p.isSuffixOf r

/-- Character class `[a-z0-9.-]` of the hosts-format regex. -/
def hostChar (c : Char) : Bool :=
  ('a' ≤ c && c ≤ 'z') || ('0' ≤ c && c ≤ '9') || c = '.' || c = '-'

/-- `re.match(r'^(0\.0\.0\.0|127\.0\.0\.1)\s+[a-z0-9.-]+$', rule)`: an IP
alternative, then at least one whitespace character, then at least one
host character, then the end of the string (Python's `$` also matches just
before one final newline). -/
def hostsFormatMatch (r : Str) : Bool :=
  let afterIp : Option Str :=
    if startsWithStr (("0.0.0.0").toList) r then some (r.drop 7)
    else if startsWithStr (("127.0.0.1").toList) r then some (r.drop 9)
    else none
  match afterIp with
  | none => false
  | some rest =>
    let w := rest.takeWhile pyIsSpace
    let rest2 := rest.drop w.length
    let h := rest2.takeWhile hostChar
    let rest3 := rest2.drop h.length
    decide (w ≠ []) && decide (h ≠ []) &&
      (decide (rest3 = []) || decide (rest3 = ['\n']))

/-- `RuleConverter.classify_rule` (src/rule_converter.py): the ordered
if-chain of syntactic predicates, returning the rule-type id or `none`. -/
def classify_rule (rule : Str) : Option Nat :=
  if startsWithStr (("||").toList) rule && hasSub (("^").toList) rule &&
      !startsWithStr (("@@").toList) rule then some 1
  else if !hasSub (("##").toList) rule && hasSub (("$domain=").toList) rule then some 2
  else if hasSub (("##").toList) rule && !startsWithStr (("@@").toList) rule &&
      !hasSub (("#@#").toList) rule && !hasSub (("#?#").toList) rule then some 3
  else if startsWithStr (("@@").toList) rule then some 4
  else if startsWithStr (("/").toList) rule && endsWithStr (("/").toList) rule then some 5
  else if hasSub (("$redirect=").toList) rule then some 15
  else if hasSub (("##+js").toList) rule then some 7
  else if hasSub (("##^").toList) rule then some 8
  else if hostsFormatMatch rule then some 9
  else if hasSub (("##").toList) rule && (hasSub ((":has(").toList) rule ||
      hasSub ((":not(").toList) rule || hasSub ((":is(").toList) rule) then some 11
  else if hasSub (("$").toList) rule && !hasSub (("$redirect=").toList) rule &&
      !hasSub (("$domain=").toList) rule && !hasSub (("$removeparam=").toList) rule then some 12
  else if hasSub (("$removeparam=").toList) rule then some 14
  else if rule ≠ [] && !startsWithStr (("!").toList) rule then some 1
  else none

/-- Helper for the `.*` blocks produced by `UBlockRuleConverter._pattern_to_regex`
from a `*`: `wmStar k s` holds when some split `s = a ++ b` has `a` free of
newlines (Python `.` does not match `\n`) and `k b`. -/
def wmStar (k : Str → Bool) : Str → Bool
  | [] => k []
  | c :: rest => k (c :: rest) || (decide (c ≠ '\n') && wmStar k rest)

/-- The matcher `re.match(UBlockRuleConverter._pattern_to_regex(p), s)`:
`_pattern_to_regex` escapes every character except `*` (which becomes `.*`)
and anchors with `^...$`, so the compiled regex is a concatenation of
literals and `.*` blocks.  Literals match themselves, `.*` a run of
non-newline characters, and the final `$` matches at the end of the string
or just before one final newline. -/
def wildMatch : Str → Str → Bool
  | [], s => decide (s = []) || decide (s = ['\n'])
  | c :: p, s =>
    if c = '*' then wmStar (wildMatch p) s
    else
      match s with
      | d :: s' => c = d && wildMatch p s'
      | [] => false

/-- `rule.split('/?')[0]` and the remainder after the first `/?`:
`some (before, after)` when `/?` occurs, `none` otherwise (in which case
Python's `rule.split('/?')[1]` raises `IndexError`). -/
def splitFirstQ : Str → Option (Str × Str)
  | '/' :: '?' :: rest => some ([], rest)
  | c :: rest => (splitFirstQ rest).map (fun p => (c :: p.1, p.2))
  | [] => none

/-- Python `s.replace(needle, repl)` for a nonempty needle: leftmost
non-overlapping occurrences, fueled by the input length. -/
def replaceAllF (needle repl : Str) : Nat → Str → Str
  | 0, s => s
  | _ + 1, [] => []
  | fuel + 1, c :: rest =>
    if needle.isPrefixOf (c :: rest) then
      repl ++ replaceAllF needle repl fuel ((c :: rest).drop needle.length)
    else c :: replaceAllF needle repl fuel rest

/-- Python `s.replace(needle, repl)` (nonempty needle). -/
def replaceAll (needle repl s : Str) : Str := replaceAllF needle repl s.length s

/-- The closing literal ` { display: none !important; }` of the AdGuard CSS
conversion regex. -/
def cssCloser : Str := (" \x7b display: none !important; \x7d").toList

/-- Scanner for
`re.sub(r'#\$#(.*) \{ display: none !important; \}', r'##\1', rule)`:
at each `#$#` the greedy `(.*)` backtracks to the rightmost occurrence of
the closing literal within the current line (`.` does not cross `\n`). -/
def cssSubF : Nat → Str → Str
  | 0, s => s
  | _ + 1, [] => []
  | fuel + 1, '#' :: '$' :: '#' :: rest =>
    let line := rest.takeWhile (fun c => c ≠ '\n')
    match (List.range (line.length + 1)).reverse.find?
        (fun j => cssCloser.isPrefixOf (line.drop j)) with
    | some j =>
      '#' :: '#' :: (line.take j ++
        cssSubF fuel (rest.drop (j + cssCloser.length)))
    | none => '#' :: cssSubF fuel ('$' :: '#' :: rest)
  | fuel + 1, c :: rest => c :: cssSubF fuel rest

/-- `convert_adguard_css_to_ublock` in `UBlockRuleConverter._apply_conversion`. -/
def convert_adguard_css_to_ublock (rule : Str) : Str := cssSubF rule.length rule

/-- One attempt of the scriptlet regex
`#%#//scriptlet\("([^"]+)", "([^"]+)"\)` at the head of `l`: the literal
prefix, a nonempty run of non-quote characters, the literal `", "`, a
second nonempty non-quote run, and the closing `")`.  Returns the two
groups. -/
def matchScriptletAt (l : Str) : Option (Str × Str) :=
  if (("#%#//scriptlet(\"").toList).isPrefixOf l then
    match (l.drop 16).drop ((l.drop 16).takeWhile (fun c => c ≠ '"')).length with
    | '"' :: ',' :: ' ' :: '"' :: r3 =>
      match r3.drop (r3.takeWhile (fun c => c ≠ '"')).length with
      | '"' :: ')' :: _ =>
        if ((l.drop 16).takeWhile (fun c => c ≠ '"')) = [] ∨
            (r3.takeWhile (fun c => c ≠ '"')) = [] then none
        else some ((l.drop 16).takeWhile (fun c => c ≠ '"'),
          r3.takeWhile (fun c => c ≠ '"'))
      | _ => none
    | _ => none
  else none

/-- `re.search` for the scriptlet regex: first position whose attempt
succeeds. -/
def searchScriptlet : Str → Option (Str × Str)
  | [] => none
  | c :: rest =>
    match matchScriptletAt (c :: rest) with
    | some p => some p
    | none => searchScriptlet rest

/-- The fixed `scriptlet_map` lookup (`dict.get(name, name)`). -/
def scriptletMapGet (n : Str) : Str :=
  if n = ("abort-on-property-read").toList then ("aopr").toList
  else if n = ("abort-on-property-write").toList then ("aopw").toList
  else if n = ("abort-current-inline-script").toList then ("acis").toList
  else if n = ("set-constant").toList then ("set").toList
  else if n = ("json-prune").toList then ("json-prune").toList
  else n

/-- `convert_adguard_scriptlet_to_ublock` in
`UBlockRuleConverter._apply_conversion`: search for the scriptlet pattern;
on a match emit `f"{domain}##+js({ubo_scriptlet}, {scriptlet_arg})"` with
`domain = rule.split('#')[0]`; otherwise return the rule unchanged. -/
def convert_adguard_scriptlet_to_ublock (rule : Str) : Str :=
  match searchScriptlet rule with
  | some (n, a) =>
    (rule.takeWhile (fun c => c ≠ '#')) ++ ("##+js(").toList ++
      scriptletMapGet n ++ (", ").toList ++ a ++ (")").toList
  | none => rule

/-- `convert_adguard_redirect_to_ublock`: the `resource_map` dict iterated
in insertion order; the first source resource name contained in the rule is
replaced everywhere. -/
def convert_adguard_redirect_to_ublock (rule : Str) : Str :=
  if hasSub (("nooptext").toList) rule then
    replaceAll (("nooptext").toList) (("1x1.gif").toList) rule
  else if hasSub (("noopjs").toList) rule then
    replaceAll (("noopjs").toList) (("noop.js").toList) rule
  else if hasSub (("noopframe").toList) rule then
    replaceAll (("noopframe").toList) (("empty.html").toList) rule
  else rule

/-- `re.sub(r'^(0\.0\.0\.0|127\.0\.0\.1)\s+', '', rule).strip()` of the
hosts/Pi-hole conversion: the anchored IP prefix plus one whitespace run is
removed when present, then both ends are stripped. -/
def hostsStripIp (rule : Str) : Str :=
  let afterIp : Option Str :=
    if (("0.0.0.0").toList).isPrefixOf rule then some (rule.drop 7)
    else if (("127.0.0.1").toList).isPrefixOf rule then some (rule.drop 9)
    else none
  let sub :=
    match afterIp with
    | some rest =>
      if (rest.takeWhile pyIsSpace) = [] then rule else rest.dropWhile pyIsSpace
    | none => rule
  stripSpace sub

/-- The `conversion_function` names stored in the `conversion_rules` table. -/
inductive ConvFn where
  | convert_adguard_css_to_ublock
  | convert_adguard_scriptlet_to_ublock
  | convert_adguard_redirect_to_ublock
  | convert_ghostery_to_ublock
  | convert_ghostery_wildcard_to_ublock
  | convert_clearurls_to_ublock_removeparam
  | convert_clearurls_param_to_ublock
  | privacy_badger_domain_to_ublock
  | convert_pihole_to_ublock
  | convert_hosts_to_ublock
deriving DecidableEq

/-- `UBlockRuleConverter._apply_conversion`: dispatch on the conversion
function name; `.error ()` models an uncaught Python exception (the
`IndexError` of the ClearURLs branch when the rule has no `/?`).  The
final catch-all substitutes the rule's leading `[^#^$]*` run for
`example.com` in the stored uBlock pattern. -/
def apply_conversion (rule : Str) (fn : ConvFn) (ublockPattern : Str) :
    Except Unit Str :=
  match fn with
  | .convert_adguard_css_to_ublock => .ok (convert_adguard_css_to_ublock rule)
  | .convert_adguard_scriptlet_to_ublock =>
    .ok (convert_adguard_scriptlet_to_ublock rule)
  | .convert_adguard_redirect_to_ublock =>
    .ok (convert_adguard_redirect_to_ublock rule)
  | .convert_ghostery_to_ublock =>
    .ok (if !(("||").toList).isPrefixOf rule then
      ("||").toList ++ rule ++ ("^").toList else rule)
  | .convert_ghostery_wildcard_to_ublock =>
    .ok (replaceAll (("*example.com*").toList) (("||example.com^").toList) rule)
  | .convert_clearurls_to_ublock_removeparam =>
    match splitFirstQ rule with
    | none => .error ()
    | some (domain, rest) =>
      let seg1 := match splitFirstQ rest with
        | some (p, _) => p
        | none => rest
      .ok (domain ++ ("$removeparam=/").toList ++
        seg1.filter (fun c => c ≠ '*') ++ (".*/i").toList)
  | .convert_pihole_to_ublock =>
    .ok (("||").toList ++ hostsStripIp rule ++ ("^").toList)
  | .convert_hosts_to_ublock =>
    .ok (("||").toList ++ hostsStripIp rule ++ ("^").toList)
  | _ =>
    .ok (replaceAll (("example.com").toList)
      (rule.takeWhile (fun c => c ≠ '#' && c ≠ '^' && c ≠ '$')) ublockPattern)

/-- `SELECT id FROM adblocker_sources WHERE name = ?` over the populated
`adblocker_sources` table. -/
def lookupSource (name : Str) : Option Nat :=
  if name = ("AdBlock Plus").toList then some 1
  else if name = ("AdGuard").toList then some 2
  else if name = ("Ghostery").toList then some 3
  else if name = ("ClearURLs").toList then some 4
  else if name = ("Privacy Badger").toList then some 5
  else if name = ("Pi-hole").toList then some 6
  else if name = ("uBlock Origin").toList then some 7
  else if name = ("Hosts File").toList then some 8
  else none

/-- One row of the `rule_patterns ⋈ conversion_rules` join used by
`convert_rule`: source id, match pattern, stored uBlock pattern, optional
conversion function. -/
structure ConvRow where
  src : Nat
  pattern : Str
  ublock : Str
  fn : Option ConvFn

/-- The joined `rule_patterns`/`conversion_rules` rows (ids 1–19; patterns
20–24 have no conversion row and are dropped by the inner join), in
ascending id order — the order SQLite returns for this unordered scan of
tables populated in ascending rowid order. -/
def conversionRows : List ConvRow :=
  [⟨1, ("||example.com^").toList, ("||example.com^").toList, none⟩,
   ⟨1, ("##.ad-class").toList, ("##.ad-class").toList, none⟩,
   ⟨1, ("example.com##.ad-class").toList, ("example.com##.ad-class").toList, none⟩,
   ⟨1, ("@@||example.com^").toList, ("@@||example.com^").toList, none⟩,
   ⟨1, ("/ads/[0-9]\x7b3\x7dx[0-9]\x7b3\x7d/").toList,
     ("/ads/[0-9]\x7b3\x7dx[0-9]\x7b3\x7d/").toList, none⟩,
   ⟨1, ("||example.com^$third-party").toList,
     ("||example.com^$third-party").toList, none⟩,
   ⟨2, ("example.com#$#.ad-class \x7b display: none !important; \x7d").toList,
     ("example.com##.ad-class").toList, some .convert_adguard_css_to_ublock⟩,
   ⟨2, ("example.com#%#//scriptlet(\"abort-on-property-read\", \"adBlockDetected\")").toList,
     ("example.com##+js(abort-on-property-read, adBlockDetected)").toList,
     some .convert_adguard_scriptlet_to_ublock⟩,
   ⟨2, ("example.com##.ad:has(.banner)").toList,
     ("example.com##.ad:has(.banner)").toList, none⟩,
   ⟨2, ("||example.com^$removeparam=utm_source").toList,
     ("||example.com^$removeparam=utm_source").toList, none⟩,
   ⟨2, ("||ads.example.com^$redirect=nooptext").toList,
     ("||ads.example.com^$redirect=nooptext").toList,
     some .convert_adguard_redirect_to_ublock⟩,
   ⟨3, ("example.com/tracker.js").toList,
     ("||example.com/tracker.js^").toList, some .convert_ghostery_to_ublock⟩,
   ⟨3, ("*example.com*").toList, ("||example.com^").toList,
     some .convert_ghostery_wildcard_to_ublock⟩,
   ⟨4, ("example.com/?utm_*").toList,
     ("||example.com^$removeparam=/utm_.*/i").toList,
     some .convert_clearurls_to_ublock_removeparam⟩,
   ⟨4, ("\x7butm_source\x7d").toList, ("||*$removeparam=utm_source").toList,
     some .convert_clearurls_param_to_ublock⟩,
   ⟨5, ("example.com/*").toList, ("||example.com^$all").toList,
     some .privacy_badger_domain_to_ublock⟩,
   ⟨6, ("ads.example.com").toList, ("||ads.example.com^").toList,
     some .convert_pihole_to_ublock⟩,
   ⟨6, ("0.0.0.0 ads.example.com").toList, ("||ads.example.com^").toList,
     some .convert_hosts_to_ublock⟩,
   ⟨8, ("127.0.0.1 ads.example.com").toList, ("||ads.example.com^").toList,
     some .convert_hosts_to_ublock⟩]

/-- The pattern loop of `UBlockRuleConverter.convert_rule`: first row whose
compiled pattern matches decides the result. -/
def findConv (rule : Str) : List ConvRow → Except Unit (Option Str × Str)
  | [] =>
    .ok (some rule, ("No specific conversion rule found, assuming compatibility").toList)
  | row :: rest =>
    if wildMatch row.pattern rule then
      match row.fn with
      | some f =>
        (apply_conversion rule f row.ublock).map
          (fun r' => (some r', ("Converted").toList))
      | none => .ok (some rule, ("Direct compatibility").toList)
    else findConv rule rest

/-- `UBlockRuleConverter.convert_rule` (src/src/database.py): look up the
source name; unknown names return `(None, "Source not found")`; otherwise
scan the source's conversion rows. -/
def convert_rule (rule sourceName : Str) : Except Unit (Option Str × Str) :=
  match lookupSource sourceName with
  | none => .ok (none, ("Source not found").toList)
  | some sid => findConv rule (conversionRows.filter (fun row => row.src = sid))

/-! ### Spec-side definitions

These are written from the specification's words, not from the code, and
serve only as the comparison side of refinement claims. -/

/-- Spec-side: the dedup key of §4.3 step 2 — the text before the first
`$`. -/
def baseKey (r : Str) : Str := r.takeWhile (fun c => c ≠ '$')

/-- Spec-side star helper: some split `s = a ++ b` with `k b`, the run `a`
unconstrained. -/
def expStarAny (k : Str → Bool) : Str → Bool
  | [] => k []
  | c :: rest => k (c :: rest) || expStarAny k rest

/-- Spec-side: `s` is obtained from pattern `p` by replacing each `*` with
an arbitrary (possibly empty) run of characters, all other characters
matched literally, anchored at both ends — the claimed matcher semantics
of C9. -/
def expandsAny : Str → Str → Bool
  | [], s => decide (s = [])
  | c :: p, s =>
    if c = '*' then expStarAny (expandsAny p) s
    else
      match s with
      | d :: s' => c = d && expandsAny p s'
      | [] => false

/-- Spec-side (amended): like `expandsAny` but each `*` expands only to a
run of non-newline characters, matching what the compiled `.*` blocks can
actually consume. -/
def expandsNoNL : Str → Str → Bool
  | [], s => decide (s = [])
  | c :: p, s =>
    if c = '*' then wmStar (expandsNoNL p) s
    else
      match s with
      | d :: s' => c = d && expandsNoNL p s'
      | [] => false

/-- Spec-side: length of the text before the first `/` — the primary
component of the §4.3 step 5 sort key. -/
def specSortKey (r : Str) : Nat × Str := ((r.takeWhile (fun c => c ≠ '/')).length, r)

/-- Lexicographic `≤` on strings (Python tuple comparison, secondary key). -/
def lexLe : Str → Str → Bool
  | [], _ => true
  | _ :: _, [] => false
  | a :: as_, b :: bs => a < b || (a = b && lexLe as_ bs)

/-- Spec-side: `≤` on the §4.3 step 5 sort keys. -/
def keyLe (a b : Nat × Str) : Bool :=
  a.1 < b.1 || (a.1 = b.1 && lexLe a.2 b.2)

/-- Spec-side (amended C7): keep the first occurrence of each string,
relative order unchanged. -/
def dedupGo (seen : List Str) : List Str → List Str
  | [] => []
  | x :: xs => if x ∈ seen then dedupGo seen xs else x :: dedupGo (x :: seen) xs

/-- Spec-side (amended C7): first-occurrence deduplication. -/
def dedupFirst (l : List Str) : List Str := dedupGo [] l

/-- The per-rule optimisation result as an `Option`: `some` exactly when the
rule contributes a candidate to the output list. -/
def optRuleOpt (r : Str) : Option Str :=
  match optimize_rule r with
  | .ok (some x) => some x
  | _ => none

/-- Whether a character is `^`. -/
def caretB (c : Char) : Bool := c = '^'

/-- Whether a character is `*`. -/
def starB (c : Char) : Bool := c = '*'

/-- Whether a character is `#`. -/
def hashB (c : Char) : Bool := c = '#'

/-- No two adjacent characters both satisfy `P`. -/
def noPair (P : Char → Bool) (l : Str) : Prop :=
  l.Chain' (fun a b => ¬(P a = true ∧ P b = true))

/-- No whitespace character is adjacent to a `>`. -/
def noWsGt (l : Str) : Prop :=
  l.Chain' (fun a b =>
    ¬(pyIsSpace a = true ∧ b = '>') ∧ ¬(a = '>' ∧ pyIsSpace b = true))

/-- The last character, if any, is not whitespace. -/
def lastNotWs (l : Str) : Prop :=
  ∀ x, l.getLast? = some x → pyIsSpace x = false

/-! ### Helper lemmas about the optimizer loop -/

/-- Invariant of the accumulation loop: the emitted list has no duplicates,
avoids the `seen` set, and every element is the per-rule optimisation of
some input rule. -/
theorem optGo_inv (rs : List Str) : ∀ seen : List Str,
    ((optRulesGo rs seen).1.Nodup) ∧
    ∀ x ∈ (optRulesGo rs seen).1,
      x ∉ seen ∧ ∃ r ∈ rs, optimize_rule r = .ok (some x) := by
  induction rs with
  | nil => intro seen; simp [optRulesGo]
  | cons r rs ih =>
    intro seen
    simp only [optRulesGo]
    cases h : optimize_rule r with
    | error e =>
      refine ⟨(ih seen).1, fun x hx => ?_⟩
      obtain ⟨hns, r₀, hr₀, hopt⟩ := (ih seen).2 x hx
      exact ⟨hns, r₀, List.mem_cons_of_mem _ hr₀, hopt⟩
    | ok o =>
      cases o with
      | none =>
        refine ⟨(ih seen).1, fun x hx => ?_⟩
        obtain ⟨hns, r₀, hr₀, hopt⟩ := (ih seen).2 x hx
        exact ⟨hns, r₀, List.mem_cons_of_mem _ hr₀, hopt⟩
      | some r' =>
        by_cases hm : r' ∈ seen
        · simp only [hm, if_true]
          refine ⟨(ih seen).1, fun x hx => ?_⟩
          obtain ⟨hns, r₀, hr₀, hopt⟩ := (ih seen).2 x hx
          exact ⟨hns, r₀, List.mem_cons_of_mem _ hr₀, hopt⟩
        · simp only [hm, if_false]
          obtain ⟨hnd, hmem⟩ := ih (r' :: seen)
          constructor
          · refine List.nodup_cons.2 ⟨fun hc => ?_, hnd⟩
            exact (hmem _ hc).1 (List.mem_cons_self _ _)
          · intro x hx
            rcases List.mem_cons.1 hx with rfl | hx'
            · exact ⟨hm, r, List.mem_cons_self _ _, h⟩
            · obtain ⟨hns, r₀, hr₀, hopt⟩ := hmem x hx'
              exact ⟨fun hc => hns (List.mem_cons_of_mem _ hc),
                r₀, List.mem_cons_of_mem _ hr₀, hopt⟩

/-- The loop emits exactly the first-occurrence deduplication of the
per-rule optimisation results, in input order. -/
theorem optGo_dedup (rs : List Str) : ∀ seen : List Str,
    (optRulesGo rs seen).1 = dedupGo seen (rs.filterMap optRuleOpt) := by
  induction rs with
  | nil => intro seen; simp [optRulesGo, dedupGo]
  | cons r rs ih =>
    intro seen
    simp only [optRulesGo, List.filterMap_cons, optRuleOpt]
    cases h : optimize_rule r with
    | error e => simpa using ih seen
    | ok o =>
      cases o with
      | none => simpa using ih seen
      | some r' =>
        by_cases hm : r' ∈ seen <;>
          simp [dedupGo, hm, ih]

/-! ### Character-tracking lemmas for the optimizer pipeline -/

/-- Characters of `dropWhile` output come from the input. -/
theorem mem_dropWhileCh (p : Char → Bool) :
    ∀ (l : Str) (c : Char), c ∈ l.dropWhile p → c ∈ l := by
  intro l
  induction l with
  | nil => intro c h; simpa using h
  | cons x t ih =>
    intro c h
    by_cases hp : p x = true
    · rw [List.dropWhile_cons_of_pos hp] at h
      exact List.mem_cons_of_mem _ (ih c h)
    · rw [List.dropWhile_cons_of_neg hp] at h
      exact h

/-- Characters of `rstripSpace` output come from the input. -/
theorem mem_rstrip (l : Str) (c : Char) (h : c ∈ rstripSpace l) : c ∈ l := by
  rw [rstripSpace] at h
  rw [List.mem_reverse] at h
  exact List.mem_reverse.1 (mem_dropWhileCh _ _ _ h)

/-- Characters of `stripSpace` output come from the input. -/
theorem mem_strip (l : Str) (c : Char) (h : c ∈ stripSpace l) : c ∈ l := by
  rw [stripSpace] at h
  exact mem_dropWhileCh _ _ _ (mem_rstrip _ _ h)

/-- Characters of `ccar` output come from the input. -/
theorem mem_ccar : ∀ (l : Str) (c : Char), c ∈ ccar l → c ∈ l := by
  intro l
  induction l with
  | nil => intro c h; simpa [ccar] using h
  | cons a t ih =>
    cases t with
    | nil => intro c h; simpa [ccar] using h
    | cons b t' =>
      intro c h
      rw [ccar] at h
      split_ifs at h
      · exact List.mem_cons_of_mem _ (ih c h)
      · rcases List.mem_cons.1 h with rfl | h'
        · exact List.mem_cons_self _ _
        · exact List.mem_cons_of_mem _ (ih c h')

/-- Characters of `cast` output come from the input. -/
theorem mem_cast : ∀ (l : Str) (c : Char), c ∈ cast l → c ∈ l := by
  intro l
  induction l with
  | nil => intro c h; simpa [cast] using h
  | cons a t ih =>
    cases t with
    | nil => intro c h; simpa [cast] using h
    | cons b t' =>
      intro c h
      rw [cast] at h
      split_ifs at h
      · exact List.mem_cons_of_mem _ (ih c h)
      · rcases List.mem_cons.1 h with rfl | h'
        · exact List.mem_cons_self _ _
        · exact List.mem_cons_of_mem _ (ih c h')

/-- Characters of `csepGo` output are commas or input characters. -/
theorem mem_csepGo : ∀ (l : Str) (b : Bool) (c : Char),
    c ∈ csepGo b l → c = ',' ∨ c ∈ l := by
  intro l
  induction l with
  | nil => intro b c h; simp [csepGo] at h
  | cons a t ih =>
    intro b c h
    cases b with
    | true =>
      rw [csepGo] at h
      split_ifs at h
      · rcases ih true c h with h' | h'
        · exact Or.inl h'
        · exact Or.inr (List.mem_cons_of_mem _ h')
      · rcases List.mem_cons.1 h with rfl | h'
        · exact Or.inr (List.mem_cons_self _ _)
        · rcases ih false c h' with h'' | h''
          · exact Or.inl h''
          · exact Or.inr (List.mem_cons_of_mem _ h'')
    | false =>
      rw [csepGo] at h
      split_ifs at h
      · rcases List.mem_cons.1 h with rfl | h'
        · exact Or.inl rfl
        · rcases ih true c h' with h'' | h''
          · exact Or.inl h''
          · exact Or.inr (List.mem_cons_of_mem _ h'')
      · rcases List.mem_cons.1 h with rfl | h'
        · exact Or.inr (List.mem_cons_self _ _)
        · rcases ih false c h' with h'' | h''
          · exact Or.inl h''
          · exact Or.inr (List.mem_cons_of_mem _ h'')

/-- Characters of `gtGo` output come from the buffer or the input. -/
theorem mem_gtGo : ∀ (l : Str) (st : Bool) (buf : Str) (c : Char),
    c ∈ gtGo st buf l → c ∈ buf ∨ c ∈ l := by
  intro l
  induction l with
  | nil =>
    intro st buf c h
    have hb : c ∈ buf.reverse := by cases st <;> exact h
    exact Or.inl (List.mem_reverse.1 hb)
  | cons a t ih =>
    intro st buf c h
    cases st with
    | true =>
      rw [gtGo] at h
      split_ifs at h with h1 h2
      · rcases ih true [] c h with h' | h'
        · simp at h'
        · exact Or.inr (List.mem_cons_of_mem _ h')
      · rcases List.mem_cons.1 h with rfl | h'
        · exact Or.inr (by rw [← h2]; exact List.mem_cons_self _ _)
        · rcases ih true [] c h' with h'' | h''
          · simp at h''
          · exact Or.inr (List.mem_cons_of_mem _ h'')
      · rcases List.mem_cons.1 h with rfl | h'
        · exact Or.inr (List.mem_cons_self _ _)
        · rcases ih false [] c h' with h'' | h''
          · simp at h''
          · exact Or.inr (List.mem_cons_of_mem _ h'')
    | false =>
      rw [gtGo] at h
      split_ifs at h with h1 h2
      · rcases ih false (a :: buf) c h with h' | h'
        · rcases List.mem_cons.1 h' with rfl | h''
          · exact Or.inr (List.mem_cons_self _ _)
          · exact Or.inl h''
        · exact Or.inr (List.mem_cons_of_mem _ h')
      · rcases List.mem_cons.1 h with rfl | h'
        · exact Or.inr (by rw [← h2]; exact List.mem_cons_self _ _)
        · rcases ih true [] c h' with h'' | h''
          · simp at h''
          · exact Or.inr (List.mem_cons_of_mem _ h'')
      · rcases List.mem_append.1 h with h' | h'
        · exact Or.inl (List.mem_reverse.1 h')
        · rcases List.mem_cons.1 h' with rfl | h''
          · exact Or.inr (List.mem_cons_self _ _)
          · rcases ih false [] c h'' with h3 | h3
            · simp at h3
            · exact Or.inr (List.mem_cons_of_mem _ h3)

/-- Characters of `wsGo` output are spaces or input characters. -/
theorem mem_wsGo : ∀ (l : Str) (b : Bool) (c : Char),
    c ∈ wsGo b l → c = ' ' ∨ c ∈ l := by
  intro l
  induction l with
  | nil => intro b c h; cases b <;> simp [wsGo] at h
  | cons a t ih =>
    intro b c h
    cases b with
    | true =>
      rw [wsGo] at h
      split_ifs at h
      · rcases ih true c h with h' | h'
        · exact Or.inl h'
        · exact Or.inr (List.mem_cons_of_mem _ h')
      · rcases List.mem_cons.1 h with rfl | h'
        · exact Or.inr (List.mem_cons_self _ _)
        · rcases ih false c h' with h'' | h''
          · exact Or.inl h''
          · exact Or.inr (List.mem_cons_of_mem _ h'')
    | false =>
      rw [wsGo] at h
      split_ifs at h
      · rcases List.mem_cons.1 h with rfl | h'
        · exact Or.inl rfl
        · rcases ih true c h' with h'' | h''
          · exact Or.inl h''
          · exact Or.inr (List.mem_cons_of_mem _ h'')
      · rcases List.mem_cons.1 h with rfl | h'
        · exact Or.inr (List.mem_cons_self _ _)
        · rcases ih false c h' with h'' | h''
          · exact Or.inl h''
          · exact Or.inr (List.mem_cons_of_mem _ h'')

/-- `splitHashHash` decomposes its input at the first `##`. -/
theorem splitHH_eq : ∀ (l d sel : Str), splitHashHash l = some (d, sel) →
    l = d ++ '#' :: '#' :: sel := by
  intro l
  induction l with
  | nil => intro d sel h; simp [splitHashHash] at h
  | cons a t ih =>
    intro d sel h
    rw [splitHashHash] at h
    split_ifs at h with hc
    · obtain ⟨rfl, hh⟩ := hc
      simp only [Option.some.injEq, Prod.mk.injEq] at h
      obtain ⟨rfl, rfl⟩ := h
      cases t with
      | nil => simp at hh
      | cons b t' =>
        simp only [List.head?_cons, Option.some.injEq] at hh
        subst hh
        rfl
    · cases hs : splitHashHash t with
      | none => rw [hs] at h; simp at h
      | some p =>
        rw [hs] at h
        obtain ⟨d', sel'⟩ := p
        simp only [Option.map_some', Option.some.injEq, Prod.mk.injEq] at h
        obtain ⟨h1, h2⟩ := h
        subst h1
        subst h2
        simp [ih d' sel' hs]

/-- The catch-all equation of `domainSub2`. -/
theorem ds2_cons_generic (d : Char) (rest : Str)
    (hguard : ∀ (c1 : Char) (r1 : List Char), d = '*' → rest = '.' :: c1 :: r1 → False) :
    domainSub2 (d :: rest) = d :: domainSub2 rest := by
  rw [domainSub2.eq_def]
  split
  · rename_i c1 r1 heq
    injection heq with h1 h2
    exact (hguard c1 r1 h1 h2).elim
  · rename_i a r heq
    injection heq with h1 h2
    rw [h1, h2]
  · rename_i heq
    exact absurd heq (by simp)

/-- Characters of `domainSub1F` output are dots or input characters. -/
theorem mem_ds1F : ∀ (fuel : Nat) (l : Str) (c : Char),
    c ∈ domainSub1F fuel l → c = '.' ∨ c ∈ l := by
  intro fuel l
  induction fuel, l using domainSub1F.induct with
  | case1 s => intro c h; exact Or.inr (by simpa [domainSub1F] using h)
  | case2 n => intro c h; simp [domainSub1F] at h
  | case3 fuel a rest hc i hfind ih =>
    intro c h
    obtain ⟨rfl, hh⟩ := hc
    cases rest with
    | nil => simp at hh
    | cons b r' =>
      simp only [List.head?_cons, Option.some.injEq] at hh
      subst hh
      simp only [List.tail_cons] at hfind ih
      rw [domainSub1F, if_pos ⟨rfl, rfl⟩] at h
      simp only [List.tail_cons, hfind] at h
      rcases List.mem_cons.1 h with rfl | h'
      · exact Or.inr (List.mem_cons_self _ _)
      · rcases List.mem_cons.1 h' with rfl | h''
        · exact Or.inr (List.mem_cons_of_mem _ (List.mem_cons_self _ _))
        · rcases List.mem_append.1 h'' with h3 | h3
          · right
            have h4 := (List.takeWhile_sublist _).subset ((List.take_sublist _ _).subset h3)
            exact List.mem_cons_of_mem _ (List.mem_cons_of_mem _ h4)
          · rcases List.mem_cons.1 h3 with rfl | h4
            · exact Or.inl rfl
            · rcases ih c h4 with h5 | h5
              · exact Or.inl h5
              · right
                exact List.mem_cons_of_mem _ (List.mem_cons_of_mem _
                  ((List.drop_sublist _ _).subset h5))
  | case4 fuel a rest hc hfind ih =>
    intro c h
    obtain ⟨rfl, hh⟩ := hc
    cases rest with
    | nil => simp at hh
    | cons b r' =>
      simp only [List.head?_cons, Option.some.injEq] at hh
      subst hh
      simp only [List.tail_cons] at hfind ih
      rw [domainSub1F, if_pos ⟨rfl, rfl⟩] at h
      simp only [List.tail_cons, hfind] at h
      rcases List.mem_cons.1 h with rfl | h'
      · exact Or.inr (List.mem_cons_self _ _)
      · rcases List.mem_cons.1 h' with rfl | h''
        · exact Or.inr (List.mem_cons_of_mem _ (List.mem_cons_self _ _))
        · rcases ih c h'' with h3 | h3
          · exact Or.inl h3
          · exact Or.inr (List.mem_cons_of_mem _ (List.mem_cons_of_mem _ h3))
  | case5 fuel a rest hc ih =>
    intro c h
    rw [domainSub1F, if_neg hc] at h
    rcases List.mem_cons.1 h with rfl | h'
    · exact Or.inr (List.mem_cons_self _ _)
    · rcases ih c h' with h3 | h3
      · exact Or.inl h3
      · exact Or.inr (List.mem_cons_of_mem _ h3)

/-- Characters of `domainSub2` output come from the input. -/
theorem mem_ds2 : ∀ (l : Str) (c : Char), c ∈ domainSub2 l → c ∈ l := by
  intro l
  induction l using domainSub2.induct with
  | case1 d rest hlow ih =>
    intro c h
    rw [domainSub2, if_pos hlow] at h
    rcases List.mem_cons.1 h with rfl | h'
    · exact List.mem_cons_of_mem _ (List.mem_cons_of_mem _ (List.mem_cons_self _ _))
    · exact List.mem_cons_of_mem _ (List.mem_cons_of_mem _
        (List.mem_cons_of_mem _ (ih c h')))
  | case2 d rest hlow ih =>
    intro c h
    rw [domainSub2, if_neg hlow] at h
    rcases List.mem_cons.1 h with rfl | h'
    · exact List.mem_cons_self _ _
    · rcases List.mem_cons.1 h' with rfl | h''
      · exact List.mem_cons_of_mem _ (List.mem_cons_self _ _)
      · exact List.mem_cons_of_mem _ (List.mem_cons_of_mem _ (ih c h''))
  | case3 d rest hguard ih =>
    intro c h
    rw [ds2_cons_generic d rest hguard] at h
    rcases List.mem_cons.1 h with rfl | h'
    · exact List.mem_cons_self _ _
    · exact List.mem_cons_of_mem _ (ih c h')
  | case4 =>
    intro c h
    simp [domainSub2] at h

/-- Characters of the element-hiding optimisation output are `#`, spaces or
input characters. -/
theorem mem_elementHide (r : Str) (c : Char)
    (h : c ∈ optimize_element_hiding_rule r) :
    c = '#' ∨ c = ' ' ∨ c ∈ r := by
  rw [optimize_element_hiding_rule] at h
  cases hsplit : splitHashHash r with
  | none => rw [hsplit] at h; exact Or.inr (Or.inr h)
  | some p =>
    obtain ⟨d, sel⟩ := p
    rw [hsplit] at h
    have hr : r = d ++ '#' :: '#' :: sel := splitHH_eq _ _ _ hsplit
    rcases List.mem_append.1 h with h' | h'
    · refine Or.inr (Or.inr ?_)
      rw [hr]
      exact List.mem_append.2 (Or.inl h')
    · rcases List.mem_cons.1 h' with rfl | h''
      · exact Or.inl rfl
      · rcases List.mem_cons.1 h'' with rfl | h3
        · exact Or.inl rfl
        · have h4 := mem_strip _ _ h3
          rcases mem_wsGo _ _ _ h4 with h5 | h5
          · exact Or.inr (Or.inl h5)
          · rcases mem_gtGo _ _ _ _ h5 with h6 | h6
            · simp at h6
            · refine Or.inr (Or.inr ?_)
              rw [hr]
              exact List.mem_append.2 (Or.inr
                (List.mem_cons_of_mem _ (List.mem_cons_of_mem _ h6)))

/-- Characters of the whole per-rule pipeline output are input characters
or one of `, . # ` (the substitutions' replacement characters). -/
theorem mem_pipe (r : Str) (c : Char) (h : c ∈ pipeRule r) :
    c ∈ r ∨ c = ',' ∨ c = ' ' ∨ c = '.' ∨ c = '#' := by
  have base : ∀ x, x ∈ csep (cast (ccar (rstripSpace r))) → x ∈ r ∨ x = ',' := by
    intro x hx
    rcases mem_csepGo _ _ _ hx with h1 | h1
    · exact Or.inr h1
    · exact Or.inl (mem_rstrip _ _ (mem_ccar _ _ (mem_cast _ _ h1)))
  rw [pipeRule] at h
  split_ifs at h
  · rw [optimize_domain_rule] at h
    have h1 := mem_ds2 _ _ h
    rcases mem_ds1F _ _ _ h1 with h2 | h2
    · exact Or.inr (Or.inr (Or.inr (Or.inl h2)))
    · rcases base c h2 with h3 | h3
      · exact Or.inl h3
      · exact Or.inr (Or.inl h3)
  · rcases mem_elementHide _ _ h with h1 | h1 | h1
    · exact Or.inr (Or.inr (Or.inr (Or.inr h1)))
    · exact Or.inr (Or.inr (Or.inl h1))
    · rcases base c h1 with h3 | h3
      · exact Or.inl h3
      · exact Or.inr (Or.inl h3)
  · rcases base c h with h3 | h3
    · exact Or.inl h3
    · exact Or.inr (Or.inl h3)

/-- Characterisation of a successful per-rule optimisation. -/
theorem opt_rule_some (r r' : Str) (h : optimize_rule r = .ok (some r')) :
    isComment r = false ∧ isEmptyLine r = false ∧ hasInvalid r = false ∧
    r' = pipeRule r ∧ pipeRule r ≠ [] := by
  rw [optimize_rule] at h
  by_cases h1 : (isComment r || isEmptyLine r) = true
  · rw [if_pos h1] at h; simp at h
  · rw [if_neg h1] at h
    by_cases h2 : hasInvalid r = true
    · rw [if_pos h2] at h; simp at h
    · rw [if_neg h2] at h
      by_cases h3 : pipeRule r = []
      · rw [if_pos h3] at h; simp at h
      · rw [if_neg h3] at h
        simp only [Except.ok.injEq, Option.some.injEq] at h
        simp only [Bool.or_eq_true, not_or, Bool.not_eq_true] at h1
        exact ⟨h1.1, h1.2, by simpa using h2, h.symm, h3⟩

/-- A rule with a non-ASCII character is skipped silently when it is a
comment or an all-whitespace line (the comment/empty checks run before the
non-ASCII check), and raises `RuleError` otherwise. -/
theorem invalid_rule_result (bad : Str) (hbad : hasInvalid bad = true) :
    ((isComment bad || isEmptyLine bad) = true ∧ optimize_rule bad = .ok none) ∨
    ((isComment bad || isEmptyLine bad) = false ∧
      optimize_rule bad = .error ()) := by
  by_cases hce : (isComment bad || isEmptyLine bad) = true
  · left
    refine ⟨hce, ?_⟩
    rw [optimize_rule, if_pos hce]
  · right
    refine ⟨Bool.not_eq_true _ ▸ hce, ?_⟩
    rw [optimize_rule, if_neg hce, if_pos hbad]

/-- Dropping a non-ASCII rule: the output list is unchanged; the warning
count increases by one when the rule reaches the non-ASCII check, and is
unchanged when the rule is silently skipped as a comment or an
all-whitespace line. -/
theorem optGo_skip (bad : Str) (ys : List Str) (hbad : hasInvalid bad = true) :
    ∀ (xs : List Str) (seen : List Str),
      (optRulesGo (xs ++ bad :: ys) seen).1 = (optRulesGo (xs ++ ys) seen).1 ∧
      ((isComment bad || isEmptyLine bad) = false →
        (optRulesGo (xs ++ bad :: ys) seen).2 =
          (optRulesGo (xs ++ ys) seen).2 + 1) ∧
      ((isComment bad || isEmptyLine bad) = true →
        (optRulesGo (xs ++ bad :: ys) seen).2 =
          (optRulesGo (xs ++ ys) seen).2) := by
  intro xs
  induction xs with
  | nil =>
    intro seen
    rcases invalid_rule_result bad hbad with ⟨hce, hob⟩ | ⟨hce, hob⟩
    · refine ⟨by simp [optRulesGo, hob], fun hcf => ?_, fun _ => ?_⟩
      · rw [hce] at hcf; cases hcf
      · simp [optRulesGo, hob]
    · refine ⟨by simp [optRulesGo, hob], fun _ => ?_, fun hcf => ?_⟩
      · simp [optRulesGo, hob]
      · rw [hce] at hcf; cases hcf
  | cons x xs ih =>
    intro seen
    simp only [List.cons_append, optRulesGo]
    cases hx : optimize_rule x with
    | error e =>
      refine ⟨by simp [(ih seen).1], fun hcf => ?_, fun hcf => ?_⟩
      · simp [(ih seen).2.1 hcf]
      · simp [(ih seen).2.2 hcf]
    | ok o =>
      cases o with
      | none => exact ih seen
      | some r' =>
        by_cases hm : r' ∈ seen
        · simp only [hm, if_true]
          exact ih seen
        · simp only [hm, if_false]
          refine ⟨by simp [(ih (r' :: seen)).1], fun hcf => ?_, fun hcf => ?_⟩
          · simp [(ih (r' :: seen)).2.1 hcf]
          · simp [(ih (r' :: seen)).2.2 hcf]

/-! ### C1: dedup by base filter -/

/-- C1 counterexample: the two rules of the claim's own example share the
dedup key (text before the first `$`) yet both survive `optimize_rules`,
so at most-one-survivor-per-base-filter is false of the code. -/
theorem c1_counterexample :
    optimize_rules
      [("||ads.example.com^").toList, ("||ads.example.com^$third-party").toList] =
      [("||ads.example.com^").toList, ("||ads.example.com^$third-party").toList] ∧
    baseKey (("||ads.example.com^").toList) =
      baseKey (("||ads.example.com^$third-party").toList) ∧
    ("||ads.example.com^").toList ≠ ("||ads.example.com^$third-party").toList := by
  refine ⟨by decide, by decide, by decide⟩

/-- C1 amended: deduplication is by the full optimised rule text, not by
the text before the first `$`: the output never contains two equal rules,
and every output rule is the per-rule optimisation of some input rule
(rules differing only in their `$`-options all survive). -/
theorem c1_amended (rs : List Str) :
    (optimize_rules rs).Nodup ∧
    ∀ x ∈ optimize_rules rs, ∃ r ∈ rs, optimize_rule r = .ok (some x) := by
  refine ⟨(optGo_inv rs []).1, fun x hx => ((optGo_inv rs []).2 x hx).2⟩

/-! ### C2: exception/block conflict resolution -/

/-- C2 counterexample: the exception rule `@@||safe.com^` survives even
though its stripped text `||safe.com^` is nowhere in the output, so
exceptions without a corresponding block are not dropped. -/
theorem c2_counterexample :
    optimize_rules [("@@||safe.com^").toList] = [("@@||safe.com^").toList] ∧
    ("||safe.com^").toList ∉ optimize_rules [("@@||safe.com^").toList] := by
  refine ⟨by decide, by decide⟩

/-- C2 amended: the optimizer performs no block/exception conflict
resolution — any rule the per-rule pass keeps survives on its own,
regardless of what else is (or is not) in the output. -/
theorem c2_amended (r r' : Str) (h : optimize_rule r = .ok (some r')) :
    optimize_rules [r] = [r'] := by
  simp [optimize_rules, optRulesGo, h]

/-- Witness for C2 amended, at the conflict-free exception rule of C2. -/
theorem c2_witness :
    optimize_rule (("@@||safe.com^").toList) =
      .ok (some (("@@||safe.com^").toList)) ∧
    optimize_rules [("@@||safe.com^").toList] = [("@@||safe.com^").toList] :=
  ⟨by rfl, c2_amended _ _ (by rfl)⟩

/-! ### C3: ExtendedCss precedence -/

/-- C3 counterexample: an element-hide rule whose selector contains
`:has(` (no `@@`, `#@#`, `#?#`) is classified as plain ElementHide (3),
not ExtendedCss (11). -/
theorem c3_counterexample :
    hasSub (("##").toList) (("example.com##div:has(x)").toList) = true ∧
    hasSub ((":has(").toList) (("example.com##div:has(x)").toList) = true ∧
    startsWithStr (("@@").toList) (("example.com##div:has(x)").toList) = false ∧
    hasSub (("#@#").toList) (("example.com##div:has(x)").toList) = false ∧
    hasSub (("#?#").toList) (("example.com##div:has(x)").toList) = false ∧
    classify_rule (("example.com##div:has(x)").toList) = some 3 := by
  refine ⟨by decide, by decide, by decide, by decide, by decide, by decide⟩

/-- C3 amended: because the plain ElementHide predicate is checked before
the ExtendedCss one, such a rule gets type 3 (ElementHide), not 11 —
provided it is not also a `||`-with-`^` rule, which the even earlier
BasicBlock predicate would claim as type 1. -/
theorem c3_amended (r : Str)
    (hhh : hasSub (("##").toList) r = true)
    (hext : hasSub ((":has(").toList) r = true ∨
      hasSub ((":not(").toList) r = true ∨ hasSub ((":is(").toList) r = true)
    (hat : startsWithStr (("@@").toList) r = false)
    (hga : hasSub (("#@#").toList) r = false)
    (hq : hasSub (("#?#").toList) r = false)
    (hbb : startsWithStr (("||").toList) r = false ∨
      hasSub (("^").toList) r = false) :
    classify_rule r = some 3 := by
  rcases hbb with h | h <;> simp_all [classify_rule]

/-- Witness for C3 amended at the rule of the C3 counterexample. -/
theorem c3_witness :
    classify_rule (("example.com##div:has(x)").toList) = some 3 :=
  c3_amended _ (by decide) (Or.inl (by decide)) (by decide) (by decide)
    (by decide) (Or.inl (by decide))

/-! ### C4: Redirect precedence over BasicBlock -/

/-- C4 counterexample: `||host^$redirect=resource` satisfies the claim's
hypotheses (contains `$redirect=`, no `@@`, no `##`) but is classified as
BasicBlock (1), not Redirect (15): in the code the BasicBlock predicate is
checked first. -/
theorem c4_counterexample :
    hasSub (("$redirect=").toList) (("||host^$redirect=resource").toList) = true ∧
    startsWithStr (("@@").toList) (("||host^$redirect=resource").toList) = false ∧
    hasSub (("##").toList) (("||host^$redirect=resource").toList) = false ∧
    classify_rule (("||host^$redirect=resource").toList) = some 1 ∧
    classify_rule (("||host^$redirect=resource").toList) ≠ some 15 := by
  refine ⟨by decide, by decide, by decide, by decide, by decide⟩

/-- C4 amended: a `$redirect=` rule is classified Redirect (15) only when
the earlier predicates do not fire: it must not be a `||`-with-`^` rule
(BasicBlock, checked first), not contain `$domain=`, and not be a
`/.../` regex rule. -/
theorem c4_amended (r : Str)
    (hred : hasSub (("$redirect=").toList) r = true)
    (hat : startsWithStr (("@@").toList) r = false)
    (hhh : hasSub (("##").toList) r = false)
    (hbb : startsWithStr (("||").toList) r = false ∨
      hasSub (("^").toList) r = false)
    (hdom : hasSub (("$domain=").toList) r = false)
    (hre : startsWithStr (("/").toList) r = false ∨
      endsWithStr (("/").toList) r = false) :
    classify_rule r = some 15 := by
  rcases hbb with h | h <;> rcases hre with h' | h' <;>
    simp_all [classify_rule]

/-- Witness for C4 amended. -/
theorem c4_witness :
    classify_rule (("a$redirect=nooptext").toList) = some 15 :=
  c4_amended _ (by decide) (by decide) (by decide) (Or.inl (by decide))
    (by decide) (Or.inl (by decide))

/-! ### C7: final deterministic ordering -/

/-- C7 counterexample: both input rules survive unchanged and appear in
input order, with consecutive output rules in strictly decreasing order of
the claimed sort key (length before the first `/`, then lexical), so the
output is not sorted by that key. -/
theorem c7_counterexample :
    optimize_rules [("bb/x").toList, ("a/y").toList] =
      [("bb/x").toList, ("a/y").toList] ∧
    keyLe (specSortKey (("bb/x").toList)) (specSortKey (("a/y").toList)) = false := by
  refine ⟨by decide, by decide⟩

/-- C7 amended: the optimizer applies no final sort — its output is exactly
the per-rule optimisation results in input order, with later exact
duplicates removed (first occurrence kept). -/
theorem c7_amended (rs : List Str) :
    optimize_rules rs = dedupFirst (rs.filterMap optRuleOpt) :=
  optGo_dedup rs []

/-! ### C5: conversion is total pass-through -/

/-- A literal (star-free) block at the front of a pattern matches exactly
itself at the front of the subject. -/
theorem wildMatch_lits (lits : Str) :
    ∀ p s, (∀ c ∈ lits, c ≠ '*') → wildMatch (lits ++ p) s = true →
      ∃ s', s = lits ++ s' ∧ wildMatch p s' = true := by
  induction lits with
  | nil => intro p s _ h; exact ⟨s, rfl, h⟩
  | cons c cs ih =>
    intro p s hl h
    have hc : c ≠ '*' := hl c (List.mem_cons_self _ _)
    rw [List.cons_append] at h
    cases s with
    | nil => simp [wildMatch, hc] at h
    | cons d s' =>
      simp only [wildMatch, hc, if_false, if_neg hc, Bool.and_eq_true,
        decide_eq_true_eq] at h
      obtain ⟨rfl, h2⟩ := h
      obtain ⟨t, rfl, ht⟩ := ih p s' (fun x hx => hl x (List.mem_cons_of_mem _ hx)) h2
      exact ⟨t, rfl, ht⟩

/-- A string containing `/?` splits successfully. -/
theorem splitFirstQ_isSome (x : Str) :
    ∀ y, (splitFirstQ (x ++ '/' :: '?' :: y)).isSome = true := by
  induction x with
  | nil => intro y; simp [splitFirstQ]
  | cons c x' ih =>
    intro y
    rw [List.cons_append, splitFirstQ.eq_def]
    split
    · rfl
    · rename_i c' rest heq
      injection heq with h1 h2
      subst h2
      simpa using ih y
    · simp_all

/-- Every branch of `apply_conversion` succeeds except the ClearURLs one,
which succeeds whenever the rule contains `/?`. -/
theorem findConv_ok (rule : Str) : ∀ rows : List ConvRow,
    (∀ row ∈ rows, row.fn = some .convert_clearurls_to_ublock_removeparam →
      row.pattern = ("example.com/?utm_*").toList) →
    ∃ r' st, findConv rule rows = .ok (some r', st) := by
  intro rows
  induction rows with
  | nil => intro _; exact ⟨rule, _, rfl⟩
  | cons row rest ih =>
    intro hrows
    rw [findConv]
    by_cases hm : wildMatch row.pattern rule = true
    · rw [if_pos hm]
      cases hfn : row.fn with
      | none => exact ⟨rule, _, rfl⟩
      | some f =>
        cases f with
        | convert_clearurls_to_ublock_removeparam =>
          have hpat := hrows row (List.mem_cons_self _ _) hfn
          rw [hpat] at hm
          have hsplit : (splitFirstQ rule).isSome = true := by
            have hdecomp : ("example.com/?utm_*").toList =
                ("example.com/?utm_").toList ++ ['*'] := rfl
            rw [hdecomp] at hm
            obtain ⟨s', rfl, _⟩ := wildMatch_lits _ _ _ (by decide) hm
            have : ("example.com/?utm_").toList ++ s' =
                ("example.com").toList ++ '/' :: '?' :: (("utm_").toList ++ s') := rfl
            rw [this]
            exact splitFirstQ_isSome _ _
          obtain ⟨p, hp⟩ := Option.isSome_iff_exists.1 hsplit
          obtain ⟨d, rest'⟩ := p
          simp only [apply_conversion, hp, Except.map]
          exact ⟨_, _, rfl⟩
        | convert_adguard_css_to_ublock => exact ⟨_, _, rfl⟩
        | convert_adguard_scriptlet_to_ublock => exact ⟨_, _, rfl⟩
        | convert_adguard_redirect_to_ublock => exact ⟨_, _, rfl⟩
        | convert_ghostery_to_ublock => exact ⟨_, _, rfl⟩
        | convert_ghostery_wildcard_to_ublock => exact ⟨_, _, rfl⟩
        | convert_clearurls_param_to_ublock => exact ⟨_, _, rfl⟩
        | privacy_badger_domain_to_ublock => exact ⟨_, _, rfl⟩
        | convert_pihole_to_ublock => exact ⟨_, _, rfl⟩
        | convert_hosts_to_ublock => exact ⟨_, _, rfl⟩
    · rw [if_neg hm]
      exact ih (fun r hr => hrows r (List.mem_cons_of_mem _ hr))

/-- C5 counterexample: a dialect name absent from the source table makes
`convert_rule` return no rule at all (`None, "Source not found"`), so
conversion is not a total pass-through over every source-dialect name. -/
theorem c5_counterexample :
    convert_rule (("||example.com^").toList) (("NoSuchSource").toList) =
      .ok (none, ("Source not found").toList) := rfl

/-- C5 amended: for every rule and every dialect name that is present in
the source table, `convert_rule` returns a rule — the transform of the
first matching conversion row, or the input unchanged; only an unknown
dialect name yields no rule (with status "Source not found"). -/
theorem c5_amended (rule name : Str) (h : (lookupSource name).isSome = true) :
    ∃ r' st, convert_rule rule name = .ok (some r', st) := by
  obtain ⟨sid, hsid⟩ := Option.isSome_iff_exists.1 h
  rw [convert_rule, hsid]
  refine findConv_ok rule _ (fun row hrow => ?_)
  have hall : ∀ row ∈ conversionRows,
      row.fn = some .convert_clearurls_to_ublock_removeparam →
      row.pattern = ("example.com/?utm_*").toList := by decide
  exact hall row (List.mem_of_mem_filter hrow)

/-- Witness for C5 amended, at a known dialect. -/
theorem c5_witness :
    (lookupSource (("AdGuard").toList)).isSome = true ∧
    ∃ r' st, convert_rule (("||test^").toList) (("AdGuard").toList) =
      .ok (some r', st) :=
  ⟨by decide, c5_amended _ _ (by decide)⟩

/-! ### C6: scriptlet transform -/

/-- `takeWhile` stops exactly at the first failing character. -/
theorem takeWhile_app (p : Char → Bool) :
    ∀ (a : Str) (b0 : Char) (bs : Str), (∀ c ∈ a, p c = true) → p b0 = false →
      (a ++ b0 :: bs).takeWhile p = a := by
  intro a
  induction a with
  | nil => intro b0 bs _ hb; simp [List.takeWhile, hb]
  | cons x a' ih =>
    intro b0 bs ha hb
    have hx : p x = true := ha x (List.mem_cons_self _ _)
    show List.takeWhile p (x :: (a' ++ b0 :: bs)) = x :: a'
    rw [List.takeWhile_cons_of_pos hx,
      ih b0 bs (fun c hc => ha c (List.mem_cons_of_mem _ hc)) hb]

/-- A scriptlet-pattern attempt fails on any string not starting with `#`. -/
theorem matchScriptletAt_nonhash (c : Char) (l : Str) (hc : c ≠ '#') :
    matchScriptletAt (c :: l) = none := by
  have hpre : ((("#%#//scriptlet(\"").toList).isPrefixOf (c :: l)) = false := by
    simp [List.isPrefixOf]
    intro h
    exact absurd h.symm hc
  rw [matchScriptletAt, if_neg (by rw [hpre]; simp)]

/-- `re.search` skips a `#`-free prefix. -/
theorem searchScriptlet_skip : ∀ (d rest : Str), (∀ c ∈ d, c ≠ '#') →
    searchScriptlet (d ++ rest) = searchScriptlet rest := by
  intro d
  induction d with
  | nil => intro rest _; rfl
  | cons c d' ih =>
    intro rest hd
    have hc : c ≠ '#' := hd c (List.mem_cons_self _ _)
    rw [List.cons_append, searchScriptlet,
      matchScriptletAt_nonhash c _ hc]
    exact ih rest (fun x hx => hd x (List.mem_cons_of_mem _ hx))

/-- The attempt at the scriptlet literal itself extracts the two groups. -/
theorem matchScriptletAt_hit (nme arg : Str)
    (hn : nme ≠ []) (hnq : ∀ c ∈ nme, c ≠ '"')
    (ha : arg ≠ []) (haq : ∀ c ∈ arg, c ≠ '"') :
    matchScriptletAt ((("#%#//scriptlet(\"").toList) ++ nme ++
      (("\", \"").toList) ++ arg ++ (("\")").toList)) = some (nme, arg) := by
  have hpre : ((("#%#//scriptlet(\"").toList).isPrefixOf
      ((("#%#//scriptlet(\"").toList) ++ nme ++ (("\", \"").toList) ++ arg ++
        (("\")").toList))) = true := by
    simp [List.isPrefixOf]
  have hdrop : ((("#%#//scriptlet(\"").toList) ++ nme ++ (("\", \"").toList) ++
      arg ++ (("\")").toList)).drop 16 =
      nme ++ (("\", \"").toList) ++ arg ++ (("\")").toList) := by
    have h16 : (16 : Nat) = (("#%#//scriptlet(\"").toList).length := rfl
    rw [h16, List.append_assoc, List.append_assoc, List.append_assoc,
      List.drop_left]
    simp [List.append_assoc]
  have htn : (nme ++ (("\", \"").toList) ++ arg ++ (("\")").toList)).takeWhile
      (fun c => c ≠ '"') = nme := by
    have : nme ++ (("\", \"").toList) ++ arg ++ (("\")").toList) =
        nme ++ '"' :: (',' :: ' ' :: '"' :: (arg ++ (("\")").toList))) := by
      simp [List.append_assoc]
    rw [this, takeWhile_app]
    · intro c hc; simpa using hnq c hc
    · simp
  have hdn : (nme ++ (("\", \"").toList) ++ arg ++ (("\")").toList)).drop
      nme.length = '"' :: ',' :: ' ' :: '"' :: (arg ++ (("\")").toList)) := by
    have : nme ++ (("\", \"").toList) ++ arg ++ (("\")").toList) =
        nme ++ '"' :: (',' :: ' ' :: '"' :: (arg ++ (("\")").toList))) := by
      simp [List.append_assoc]
    rw [this, List.drop_left]
  have hta : (arg ++ (("\")").toList)).takeWhile (fun c => c ≠ '"') = arg := by
    have : arg ++ (("\")").toList) = arg ++ '"' :: [')'] := rfl
    rw [this, takeWhile_app]
    · intro c hc; simpa using haq c hc
    · simp
  have hda : (arg ++ (("\")").toList)).drop arg.length = '"' :: [')'] := by
    have : arg ++ (("\")").toList) = arg ++ '"' :: [')'] := rfl
    rw [this, List.drop_left]
  rw [matchScriptletAt, if_pos hpre, hdrop, htn, hdn]
  simp only [hta, hda]
  simp [hn, ha]

/-- C6 counterexample: the claim's input shape has no space after the
comma, but the code's regex requires `", "`, so the conversion function
returns the input unchanged instead of the claimed `##+js` form. -/
theorem c6_counterexample :
    convert_adguard_scriptlet_to_ublock
      (("example.com#%#//scriptlet(\"abort-on-property-read\",\"adBlockDetected\")").toList) =
      (("example.com#%#//scriptlet(\"abort-on-property-read\",\"adBlockDetected\")").toList) ∧
    convert_adguard_scriptlet_to_ublock
      (("example.com#%#//scriptlet(\"abort-on-property-read\",\"adBlockDetected\")").toList) ≠
      (("example.com##+js(aopr, adBlockDetected)").toList) := by
  refine ⟨by rfl, by decide⟩

/-- C6 amended: the input shape must have a comma-space between the two
quoted arguments — `domain#%#//scriptlet("name", "arg")`.  For every such
input (domain free of `#`, nonempty quote-free name and argument) the
conversion emits `domain##+js(mappedName, arg)` with the name sent through
the fixed table. -/
theorem c6_amended (domain nme arg : Str)
    (hd : ∀ c ∈ domain, c ≠ '#')
    (hn : nme ≠ []) (hnq : ∀ c ∈ nme, c ≠ '"')
    (ha : arg ≠ []) (haq : ∀ c ∈ arg, c ≠ '"') :
    convert_adguard_scriptlet_to_ublock
      (domain ++ (("#%#//scriptlet(\"").toList) ++ nme ++ (("\", \"").toList) ++
        arg ++ (("\")").toList)) =
      domain ++ (("##+js(").toList) ++ scriptletMapGet nme ++ ((", ").toList) ++
        arg ++ ((")").toList) := by
  have hassoc : domain ++ (("#%#//scriptlet(\"").toList) ++ nme ++
      (("\", \"").toList) ++ arg ++ (("\")").toList) =
      domain ++ ((("#%#//scriptlet(\"").toList) ++ nme ++ (("\", \"").toList) ++
        arg ++ (("\")").toList)) := by
    simp [List.append_assoc]
  rw [convert_adguard_scriptlet_to_ublock, hassoc, searchScriptlet_skip _ _ hd]
  have hsearch : searchScriptlet ((("#%#//scriptlet(\"").toList) ++ nme ++
      (("\", \"").toList) ++ arg ++ (("\")").toList)) = some (nme, arg) := by
    have hcons : (("#%#//scriptlet(\"").toList) ++ nme ++ (("\", \"").toList) ++
        arg ++ (("\")").toList) = '#' ::
        ((("%#//scriptlet(\"").toList) ++ nme ++ (("\", \"").toList) ++
          arg ++ (("\")").toList)) := by
      simp [List.append_assoc]
    rw [hcons, searchScriptlet, ← hcons, matchScriptletAt_hit nme arg hn hnq ha haq]
  rw [hsearch]
  have htw : ((domain ++ ((("#%#//scriptlet(\"").toList) ++ nme ++
      (("\", \"").toList) ++ arg ++ (("\")").toList))).takeWhile
        (fun c => c ≠ '#')) = domain := by
    have : (("#%#//scriptlet(\"").toList) ++ nme ++ (("\", \"").toList) ++
        arg ++ (("\")").toList) = '#' ::
        ((("%#//scriptlet(\"").toList) ++ nme ++ (("\", \"").toList) ++
          arg ++ (("\")").toList)) := by
      simp [List.append_assoc]
    rw [this, takeWhile_app]
    · intro c hc; simpa using hd c hc
    · simp
  rw [htw]

/-- Witness for C6 amended, at the database's own example scriptlet rule. -/
theorem c6_witness :
    convert_adguard_scriptlet_to_ublock
      ((("example.com").toList) ++ (("#%#//scriptlet(\"").toList) ++
        (("abort-on-property-read").toList) ++ (("\", \"").toList) ++
        (("adBlockDetected").toList) ++ (("\")").toList)) =
      (("example.com").toList) ++ (("##+js(").toList) ++
        scriptletMapGet (("abort-on-property-read").toList) ++ ((", ").toList) ++
        (("adBlockDetected").toList) ++ ((")").toList) :=
  c6_amended _ _ _ (by decide) (by decide) (by decide) (by decide) (by decide)

/-! ### C9: wildcard matcher semantics -/

/-- Characterisation of the `.*` block: some split with a newline-free
left part accepted by the continuation. -/
theorem wmStar_iff (k : Str → Bool) : ∀ s, wmStar k s = true ↔
    ∃ a b, s = a ++ b ∧ (∀ c ∈ a, c ≠ '\n') ∧ k b = true := by
  intro s
  induction s with
  | nil =>
    rw [wmStar]
    constructor
    · intro h; exact ⟨[], [], rfl, by simp, h⟩
    · rintro ⟨a, b, h, _, hk⟩
      obtain ⟨rfl, rfl⟩ := List.append_eq_nil.1 h.symm
      exact hk
  | cons c s' ih =>
    rw [wmStar]
    simp only [Bool.or_eq_true, Bool.and_eq_true, decide_eq_true_eq]
    constructor
    · rintro (h | ⟨hc, h⟩)
      · exact ⟨[], c :: s', rfl, by simp, h⟩
      · obtain ⟨a, b, rfl, ha, hk⟩ := ih.1 h
        refine ⟨c :: a, b, rfl, ?_, hk⟩
        intro x hx
        rcases List.mem_cons.1 hx with rfl | hx'
        · exact hc
        · exact ha x hx'
    · rintro ⟨a, b, heq, ha, hk⟩
      cases a with
      | nil =>
        left
        simp only [List.nil_append] at heq
        rw [heq]; exact hk
      | cons a0 a' =>
        injection heq with h1 h2
        subst h1
        right
        exact ⟨ha _ (List.mem_cons_self _ _),
          ih.2 ⟨a', b, h2, fun x hx => ha x (List.mem_cons_of_mem _ hx), hk⟩⟩

/-- C9 counterexample: the compiled matcher accepts a subject with one
trailing newline (Python `$`), which is not obtainable from the pattern by
wildcard substitution, so the claimed "anchored at both ends" iff fails. -/
theorem c9_counterexample :
    wildMatch (("a").toList) (("a\n").toList) = true ∧
    expandsAny (("a").toList) (("a\n").toList) = false := by
  refine ⟨by decide, by decide⟩

/-- C9 amended: the matcher accepts `s` iff `s` is obtainable from the
pattern by replacing each `*` with a run of non-newline characters —
either exactly, or after removing a single trailing newline of `s`
(Python's `$` also matches just before a final newline, and `.` never
matches a newline). -/
theorem c9_amended (p : Str) : ∀ s : Str,
    wildMatch p s = true ↔
      (expandsNoNL p s = true ∨
        ∃ s', s = s' ++ ['\n'] ∧ expandsNoNL p s' = true) := by
  induction p with
  | nil =>
    intro s
    rw [wildMatch, expandsNoNL]
    simp only [Bool.or_eq_true, decide_eq_true_eq]
    constructor
    · rintro (rfl | rfl)
      · exact Or.inl rfl
      · exact Or.inr ⟨[], rfl, rfl⟩
    · rintro (rfl | ⟨s', rfl, h⟩)
      · exact Or.inl rfl
      · rw [of_decide_eq_true h]
        exact Or.inr rfl
  | cons c p ih =>
    intro s
    by_cases hc : c = '*'
    · subst hc
      have hw : ∀ t : Str, wildMatch ('*' :: p) t = wmStar (wildMatch p) t :=
        fun t => rfl
      have he : ∀ t : Str, expandsNoNL ('*' :: p) t = wmStar (expandsNoNL p) t :=
        fun t => rfl
      simp only [hw, he]
      rw [wmStar_iff]
      constructor
      · rintro ⟨a, b, rfl, ha, hb⟩
        rcases (ih b).1 hb with h | ⟨b', rfl, h⟩
        · exact Or.inl ((wmStar_iff _ _).2 ⟨a, b, rfl, ha, h⟩)
        · refine Or.inr ⟨a ++ b', by rw [List.append_assoc], ?_⟩
          exact (wmStar_iff _ _).2 ⟨a, b', rfl, ha, h⟩
      · rintro (h | ⟨s', rfl, h⟩)
        · obtain ⟨a, b, rfl, ha, hb⟩ := (wmStar_iff _ _).1 h
          exact ⟨a, b, rfl, ha, (ih b).2 (Or.inl hb)⟩
        · obtain ⟨a, b, rfl, ha, hb⟩ := (wmStar_iff _ _).1 h
          refine ⟨a, b ++ ['\n'], by rw [List.append_assoc], ha, ?_⟩
          exact (ih _).2 (Or.inr ⟨b, rfl, hb⟩)
    · have hw0 : wildMatch (c :: p) [] = false := by simp [wildMatch, hc]
      have he0 : expandsNoNL (c :: p) [] = false := by simp [expandsNoNL, hc]
      have hwc : ∀ (d : Char) (t : Str),
          wildMatch (c :: p) (d :: t) = (decide (c = d) && wildMatch p t) := by
        intro d t; simp [wildMatch, hc]
      have hec : ∀ (d : Char) (t : Str),
          expandsNoNL (c :: p) (d :: t) = (decide (c = d) && expandsNoNL p t) := by
        intro d t; simp [expandsNoNL, hc]
      cases s with
      | nil =>
        rw [hw0, he0]
        constructor
        · intro h; cases h
        · rintro (h | ⟨s', hs, _⟩)
          · cases h
          · exact absurd hs.symm (by simp)
      | cons d s' =>
        rw [hwc, hec]
        simp only [Bool.and_eq_true, decide_eq_true_eq]
        constructor
        · rintro ⟨rfl, h⟩
          rcases (ih s').1 h with h' | ⟨t, rfl, h'⟩
          · exact Or.inl ⟨rfl, h'⟩
          · refine Or.inr ⟨c :: t, rfl, ?_⟩
            rw [hec]
            simp [h']
        · rintro (⟨rfl, h⟩ | ⟨t, ht, h⟩)
          · exact ⟨rfl, (ih s').2 (Or.inl h)⟩
          · cases t with
            | nil =>
              simp only [List.nil_append] at ht
              injection ht with h1 h2
              subst h1; subst h2
              rw [he0] at h
              cases h
            | cons t0 t' =>
              rw [List.cons_append] at ht
              injection ht with h1 h2
              subst h1
              rw [hec] at h
              simp only [Bool.and_eq_true, decide_eq_true_eq] at h
              obtain ⟨rfl, h⟩ := h
              exact ⟨rfl, (ih s').2 (Or.inr ⟨t', h2, h⟩)⟩

/-! ### C10: totality, warning on non-ASCII, pure-ASCII output -/

/-- C10: `optimize_rules` is total by construction (it is a Lean function);
a rule containing a non-ASCII character contributes nothing to the output
wherever it sits and the remaining rules are still processed; when the
rule reaches the non-ASCII check (it is not skipped earlier as a comment
or an all-whitespace line) the `RuleError` it raises is caught and counted
as exactly one extra warning, and when it is skipped earlier the warning
count is unchanged; moreover every character of every output rule is
ASCII. -/
theorem c10_total_ascii (xs ys rs : List Str) (bad : Str)
    (hbad : hasInvalid bad = true) :
    optimize_rules (xs ++ bad :: ys) = optimize_rules (xs ++ ys) ∧
    ((isComment bad || isEmptyLine bad) = false →
      optimizeWarnings (xs ++ bad :: ys) = optimizeWarnings (xs ++ ys) + 1) ∧
    ((isComment bad || isEmptyLine bad) = true →
      optimizeWarnings (xs ++ bad :: ys) = optimizeWarnings (xs ++ ys)) ∧
    (∀ r' ∈ optimize_rules rs, ∀ c ∈ r', c.toNat ≤ 127) := by
  refine ⟨(optGo_skip bad ys hbad xs []).1, (optGo_skip bad ys hbad xs []).2.1,
    (optGo_skip bad ys hbad xs []).2.2,
    fun r' hr' c hc => ?_⟩
  obtain ⟨r, hrmem, hopt⟩ := ((optGo_inv rs []).2 r' hr').2
  obtain ⟨_, _, hinv, hr', _⟩ := opt_rule_some r r' hopt
  subst hr'
  have hr : ∀ x ∈ r, x.toNat ≤ 127 := by
    intro x hx
    by_contra hgt
    have : hasInvalid r = true :=
      List.any_eq_true.2 ⟨x, hx, decide_eq_true (by omega)⟩
    rw [this] at hinv
    cases hinv
  rcases mem_pipe r c hc with h | h | h | h | h
  · exact hr c h
  · subst h; decide
  · subst h; decide
  · subst h; decide
  · subst h; decide

/-! ### C8 stage A: structure of the run-collapsing substitutions -/

/-- `getLast?` of a cons with nonempty tail. -/
theorem lastq_cons (a : Char) (X : Str) (h : X ≠ []) :
    (a :: X).getLast? = X.getLast? := by
  cases X with
  | nil => exact absurd rfl h
  | cons y ys => exact List.getLast?_cons_cons ..

/-- The head of a `dropWhile` result fails the predicate. -/
theorem head_dropWhile (p : Char → Bool) :
    ∀ (l : Str) (x : Char), (l.dropWhile p).head? = some x → p x = false := by
  intro l
  induction l with
  | nil => intro x h; simp at h
  | cons c t ih =>
    intro x h
    by_cases hp : p c = true
    · rw [List.dropWhile_cons_of_pos hp] at h
      exact ih x h
    · rw [List.dropWhile_cons_of_neg hp] at h
      simp only [List.head?_cons, Option.some.injEq] at h
      subst h
      exact Bool.not_eq_true _ ▸ hp

/-- `lastNotWs` passes to the tail. -/
theorem lastNotWs_tail (a : Char) (rest : Str) (h : lastNotWs (a :: rest)) :
    lastNotWs rest := by
  intro x hx
  apply h x
  rw [lastq_cons a rest]
  · exact hx
  · intro hnil; rw [hnil] at hx; simp at hx

/-- `ccar` preserves the head. -/
theorem ccar_head : ∀ l : Str, (ccar l).head? = l.head? := by
  intro l
  induction l with
  | nil => rfl
  | cons a t ih =>
    cases t with
    | nil => rfl
    | cons b rest =>
      rw [ccar]
      split_ifs with h
      · rw [ih]
        simp [h.1, h.2]
      · rfl

/-- `cast` preserves the head. -/
theorem cast_head : ∀ l : Str, (cast l).head? = l.head? := by
  intro l
  induction l with
  | nil => rfl
  | cons a t ih =>
    cases t with
    | nil => rfl
    | cons b rest =>
      rw [cast]
      split_ifs with h
      · rw [ih]
        simp [h.1, h.2]
      · rfl

/-- `ccar` preserves nonemptiness. -/
theorem ccar_ne : ∀ l : Str, l ≠ [] → ccar l ≠ [] := by
  intro l
  induction l with
  | nil => intro h; exact absurd rfl h
  | cons a t ih =>
    intro _
    cases t with
    | nil => simp [ccar]
    | cons b rest =>
      rw [ccar]
      split_ifs with h
      · exact ih (by simp)
      · simp

/-- `cast` preserves nonemptiness. -/
theorem cast_ne : ∀ l : Str, l ≠ [] → cast l ≠ [] := by
  intro l
  induction l with
  | nil => intro h; exact absurd rfl h
  | cons a t ih =>
    intro _
    cases t with
    | nil => simp [cast]
    | cons b rest =>
      rw [cast]
      split_ifs with h
      · exact ih (by simp)
      · simp

/-- `csepGo false` preserves nonemptiness. -/
theorem csep_ne (l : Str) (h : l ≠ []) : csepGo false l ≠ [] := by
  cases l with
  | nil => exact absurd rfl h
  | cons a rest =>
    rw [csepGo]
    split_ifs <;> simp

/-- `ccar` preserves the last element. -/
theorem ccar_last : ∀ l : Str, (ccar l).getLast? = l.getLast? := by
  intro l
  induction l with
  | nil => rfl
  | cons a t ih =>
    cases t with
    | nil => rfl
    | cons b rest =>
      rw [ccar]
      split_ifs with h
      · rw [ih, List.getLast?_cons_cons]
      · rw [lastq_cons _ _ (ccar_ne _ (by simp)), ih, List.getLast?_cons_cons]

/-- `cast` preserves the last element. -/
theorem cast_last : ∀ l : Str, (cast l).getLast? = l.getLast? := by
  intro l
  induction l with
  | nil => rfl
  | cons a t ih =>
    cases t with
    | nil => rfl
    | cons b rest =>
      rw [cast]
      split_ifs with h
      · rw [ih, List.getLast?_cons_cons]
      · rw [lastq_cons _ _ (cast_ne _ (by simp)), ih, List.getLast?_cons_cons]

/-- The head after `csepGo true` is never a separator character. -/
theorem csep_head_true : ∀ (l : Str) (x : Char),
    (csepGo true l).head? = some x → sepC x = false := by
  intro l
  induction l with
  | nil => intro x h; simp [csepGo] at h
  | cons a rest ih =>
    intro x h
    rw [csepGo] at h
    split_ifs at h with hs
    · exact ih x h
    · simp only [List.head?_cons, Option.some.injEq] at h
      subst h
      exact Bool.not_eq_true _ ▸ hs

/-- The head after `csepGo false` is the input head or a comma. -/
theorem csep_head_false (l : Str) (x : Char)
    (h : (csepGo false l).head? = some x) : x = ',' ∨ l.head? = some x := by
  cases l with
  | nil => simp [csepGo] at h
  | cons a rest =>
    rw [csepGo] at h
    split_ifs at h
    · simp only [List.head?_cons, Option.some.injEq] at h
      exact Or.inl h.symm
    · simp only [List.head?_cons, Option.some.injEq] at h
      subst h
      exact Or.inr rfl

/-- When the input does not start with a separator, `csepGo false`
preserves the head exactly. -/
theorem csep_head_false2 (l : Str) (hl : headSep l = false) :
    (csepGo false l).head? = l.head? := by
  cases l with
  | nil => rfl
  | cons a rest =>
    rw [csepGo]
    rw [if_neg]
    · rfl
    · rw [headSep] at hl
      simp [hl]

/-- `csepGo` preserves `lastNotWs`. -/
theorem csep_lastNW : ∀ (l : Str) (b : Bool),
    lastNotWs l → lastNotWs (csepGo b l) := by
  intro l
  induction l with
  | nil => intro b _ x hx; cases b <;> simp [csepGo] at hx
  | cons a rest ih =>
    intro b hl
    cases b with
    | true =>
      rw [csepGo]
      split_ifs with hs
      · exact ih true (lastNotWs_tail _ _ hl)
      · intro x hx
        cases rest with
        | nil =>
          have hx' : a = x := by simpa [csepGo] using hx
          subst hx'
          exact hl a (by simp)
        | cons y ys =>
          rw [lastq_cons _ _ (csep_ne _ (by simp))] at hx
          exact ih false (lastNotWs_tail _ _ hl) x hx
    | false =>
      rw [csepGo]
      split_ifs with hs
      · intro x hx
        by_cases hr : csepGo true rest = []
        · rw [hr] at hx
          simp only [List.getLast?_singleton, Option.some.injEq] at hx
          subst hx
          decide
        · rw [lastq_cons _ _ hr] at hx
          exact ih true (lastNotWs_tail _ _ hl) x hx
      · intro x hx
        cases rest with
        | nil =>
          have hx' : a = x := by simpa [csepGo] using hx
          subst hx'
          exact hl a (by simp)
        | cons y ys =>
          rw [lastq_cons _ _ (csep_ne _ (by simp))] at hx
          exact ih false (lastNotWs_tail _ _ hl) x hx

/-- `rstripSpace` output never ends in whitespace. -/
theorem rstrip_lastNW (l : Str) : lastNotWs (rstripSpace l) := by
  intro x hx
  rw [rstripSpace] at hx
  rw [List.getLast?_reverse] at hx
  exact head_dropWhile _ _ _ hx

/-- The output of `csepGo` has no two adjacent separator characters. -/
theorem csep_chain : ∀ (l : Str) (b : Bool), noPair sepC (csepGo b l) := by
  intro l
  induction l with
  | nil => intro b; cases b <;> exact List.chain'_nil
  | cons a rest ih =>
    intro b
    cases b with
    | true =>
      rw [csepGo]
      split_ifs with hs
      · exact ih true
      · rw [noPair, List.chain'_cons']
        refine ⟨fun y hy => ?_, ih false⟩
        intro hcon
        exact hs hcon.1
    | false =>
      rw [csepGo]
      split_ifs with hs
      · rw [noPair, List.chain'_cons']
        refine ⟨fun y hy => ?_, ih true⟩
        intro hcon
        rw [csep_head_true rest y hy] at hcon
        exact absurd hcon.2 (by simp)
      · rw [noPair, List.chain'_cons']
        refine ⟨fun y hy hcon => ?_, ih false⟩
        have ha := hcon.1
        have hhs : headSep rest = false := by
          cases hh : headSep rest
          · rfl
          · exact absurd (by rw [Bool.and_eq_true]; exact ⟨ha, hh⟩) hs
        have hy2 : (csepGo false rest).head? = some y := hy
        rw [csep_head_false2 rest hhs] at hy2
        cases rest with
        | nil => simp at hy2
        | cons r rs =>
          simp only [List.head?_cons, Option.some.injEq] at hy2
          rw [headSep] at hhs
          rw [hy2] at hhs
          exact absurd hcon.2 (by simp [hhs])

/-- The output of `cast` has no two adjacent asterisks. -/
theorem cast_chain : ∀ l : Str, noPair starB (cast l) := by
  intro l
  induction l with
  | nil => exact List.chain'_nil
  | cons a t ih =>
    cases t with
    | nil => exact List.chain'_singleton _
    | cons b rest =>
      rw [cast]
      split_ifs with h
      · exact ih
      · rw [noPair, List.chain'_cons']
        refine ⟨fun y hy => ?_, ih⟩
        have hy2 : (cast (b :: rest)).head? = some y := hy
        rw [cast_head] at hy2
        simp only [List.head?_cons, Option.some.injEq] at hy2
        subst hy2
        intro hcon
        rw [starB, starB] at hcon
        exact h ⟨by simpa using hcon.1, by simpa using hcon.2⟩

/-- `csepGo` preserves pair-freeness for any class without the comma. -/
theorem csep_pres (P : Char → Bool) (hP : P ',' = false) :
    ∀ (l : Str) (b : Bool), noPair P l → noPair P (csepGo b l) := by
  intro l
  induction l with
  | nil => intro b _; cases b <;> exact List.chain'_nil
  | cons a rest ih =>
    intro b hc
    have hct : noPair P rest := List.Chain'.tail hc
    cases b with
    | true =>
      rw [csepGo]
      split_ifs with hs
      · exact ih true hct
      · rw [noPair, List.chain'_cons']
        refine ⟨fun y hy => ?_, ih false hct⟩
        rcases csep_head_false rest y hy with rfl | hy'
        · intro hcon; rw [hP] at hcon; exact absurd hcon.2 (by simp)
        · exact (List.chain'_cons'.1 hc).1 y hy'
    | false =>
      rw [csepGo]
      split_ifs with hs
      · rw [noPair, List.chain'_cons']
        refine ⟨fun y hy => ?_, ih true hct⟩
        intro hcon; rw [hP] at hcon; exact absurd hcon.1 (by simp)
      · rw [noPair, List.chain'_cons']
        refine ⟨fun y hy => ?_, ih false hct⟩
        rcases csep_head_false rest y hy with rfl | hy'
        · intro hcon; rw [hP] at hcon; exact absurd hcon.2 (by simp)
        · exact (List.chain'_cons'.1 hc).1 y hy'

/-- `ccar` is the identity on caret-pair-free strings. -/
theorem ccar_id : ∀ l : Str, noPair caretB l → ccar l = l := by
  intro l
  induction l with
  | nil => intro _; rfl
  | cons a t ih =>
    intro hc
    cases t with
    | nil => rfl
    | cons b rest =>
      rw [ccar]
      rw [if_neg]
      · rw [ih (List.Chain'.tail hc)]
      · intro h
        exact (List.chain'_cons'.1 hc).1 b (by simp)
          ⟨by simp [caretB, h.1], by simp [caretB, h.2]⟩

/-- `cast` is the identity on asterisk-pair-free strings. -/
theorem cast_id : ∀ l : Str, noPair starB l → cast l = l := by
  intro l
  induction l with
  | nil => intro _; rfl
  | cons a t ih =>
    intro hc
    cases t with
    | nil => rfl
    | cons b rest =>
      rw [cast]
      rw [if_neg]
      · rw [ih (List.Chain'.tail hc)]
      · intro h
        exact (List.chain'_cons'.1 hc).1 b (by simp)
          ⟨by simp [starB, h.1], by simp [starB, h.2]⟩

/-- `csepGo false` is the identity on separator-pair-free strings. -/
theorem csep_id : ∀ l : Str, noPair sepC l → csepGo false l = l := by
  intro l
  induction l with
  | nil => intro _; rfl
  | cons a rest ih =>
    intro hc
    rw [csepGo]
    rw [if_neg]
    · rw [ih (List.Chain'.tail hc)]
    · intro h
      rw [Bool.and_eq_true] at h
      cases rest with
      | nil => simp [headSep] at h
      | cons r rs =>
        rw [headSep] at h
        exact (List.chain'_cons'.1 hc).1 r (by simp) ⟨h.1, h.2⟩

/-- `rstripSpace` is the identity on strings not ending in whitespace. -/
theorem rstrip_id (l : Str) (h : lastNotWs l) : rstripSpace l = l := by
  rw [rstripSpace]
  cases hrev : l.reverse with
  | nil =>
    have : l = [] := by simpa using congrArg List.reverse hrev
    simp [this]
  | cons c t =>
    have hc : pyIsSpace c = false := by
      apply h
      rw [← List.head?_reverse]
      rw [hrev]
      rfl
    rw [List.dropWhile_cons_of_neg (by simp [hc]), ← hrev, List.reverse_reverse]

/-- `ccar` reflects the `||` prefix. -/
theorem ccar_bb : ∀ l : Str, startsBB (ccar l) = true → startsBB l = true := by
  intro l
  induction l with
  | nil => intro h; simpa [ccar] using h
  | cons a t ih =>
    cases t with
    | nil => intro h; simpa [ccar] using h
    | cons b rest =>
      intro h
      rw [ccar] at h
      split_ifs at h with hab
      · have := ih h
        rw [startsBB] at this
        simp only [List.head?_cons, Bool.and_eq_true, decide_eq_true_eq,
          Option.some.injEq] at this
        exact absurd this.1 (by rw [hab.2]; decide)
      · rw [startsBB] at h ⊢
        simp only [List.head?_cons, List.tail_cons, Bool.and_eq_true,
          decide_eq_true_eq, Option.some.injEq] at h ⊢
        refine ⟨h.1, ?_⟩
        have := h.2
        rw [ccar_head] at this
        simpa using this

/-- `cast` reflects the `||` prefix. -/
theorem cast_bb : ∀ l : Str, startsBB (cast l) = true → startsBB l = true := by
  intro l
  induction l with
  | nil => intro h; simpa [cast] using h
  | cons a t ih =>
    cases t with
    | nil => intro h; simpa [cast] using h
    | cons b rest =>
      intro h
      rw [cast] at h
      split_ifs at h with hab
      · have := ih h
        rw [startsBB] at this
        simp only [List.head?_cons, Bool.and_eq_true, decide_eq_true_eq,
          Option.some.injEq] at this
        exact absurd this.1 (by rw [hab.2]; decide)
      · rw [startsBB] at h ⊢
        simp only [List.head?_cons, List.tail_cons, Bool.and_eq_true,
          decide_eq_true_eq, Option.some.injEq] at h ⊢
        refine ⟨h.1, ?_⟩
        have := h.2
        rw [cast_head] at this
        simpa using this

/-- `csepGo false` reflects the `||` prefix. -/
theorem csep_bb (l : Str) (h : startsBB (csepGo false l) = true) :
    startsBB l = true := by
  cases l with
  | nil => simpa [csepGo] using h
  | cons a rest =>
    rw [csepGo] at h
    split_ifs at h with hs
    · rw [startsBB] at h
      simp at h
    · rw [startsBB] at h ⊢
      simp only [List.head?_cons, List.tail_cons, Bool.and_eq_true,
        decide_eq_true_eq, Option.some.injEq] at h ⊢
      refine ⟨h.1, ?_⟩
      obtain ⟨y, hy⟩ : ∃ y, (csepGo false rest).head? = some y := by
        cases hcr : (csepGo false rest).head? with
        | none => rw [hcr] at h; simp at h
        | some y => exact ⟨y, rfl⟩
      rw [hy] at h
      rcases csep_head_false rest y hy with rfl | hy'
      · simp only [Option.some.injEq] at h
        exact absurd h.2 (by decide)
      · rw [hy']
        simpa [h.2] using rfl

/-! ### C8 stage B: the `##` split -/

/-- The part before the first `##` contains no `##` and does not end in
`#`: as a chain, `d ++ ['#']` has no two adjacent hashes. -/
theorem splitHH_d : ∀ (l d sel : Str), splitHashHash l = some (d, sel) →
    noPair hashB (d ++ ['#']) := by
  intro l
  induction l with
  | nil => intro d sel h; simp [splitHashHash] at h
  | cons a t ih =>
    intro d sel h
    rw [splitHashHash] at h
    split_ifs at h with hc
    · simp only [Option.some.injEq, Prod.mk.injEq] at h
      obtain ⟨rfl, rfl⟩ := h
      exact List.chain'_singleton _
    · cases hs : splitHashHash t with
      | none => rw [hs] at h; simp at h
      | some p =>
        obtain ⟨d', sel'⟩ := p
        rw [hs] at h
        simp only [Option.map_some', Option.some.injEq, Prod.mk.injEq] at h
        obtain ⟨h1, h2⟩ := h
        subst h1
        subst h2
        rw [noPair, List.cons_append, List.chain'_cons']
        refine ⟨fun y hy hcon => ?_, ih d' sel' hs⟩
        have ht := splitHH_eq t d' sel' hs
        cases d' with
        | nil =>
          have ha : a = '#' := by simpa [hashB] using hcon.1
          exact hc ⟨ha, by rw [ht]; rfl⟩
        | cons e d'' =>
          have ha : a = '#' := by simpa [hashB] using hcon.1
          have hye : e = y := by simpa using hy
          have hy' : y = '#' := by simpa [hashB] using hcon.2
          refine hc ⟨ha, ?_⟩
          rw [ht]
          simp [hye, hy']

/-- Re-splitting a reassembled element-hiding rule finds the same
boundary. -/
theorem splitHH_reassemble : ∀ (d sel : Str), noPair hashB (d ++ ['#']) →
    splitHashHash (d ++ '#' :: '#' :: sel) = some (d, sel) := by
  intro d
  induction d with
  | nil =>
    intro sel _
    rw [List.nil_append, splitHashHash, if_pos ⟨rfl, rfl⟩]
    rfl
  | cons a d' ih =>
    intro sel hd
    have hd' : List.Chain' (fun x y => ¬(hashB x = true ∧ hashB y = true))
        (a :: (d' ++ ['#'])) := by simpa [noPair] using hd
    rw [List.cons_append, splitHashHash]
    rw [if_neg]
    · rw [ih sel (List.Chain'.tail hd')]
      rfl
    · rintro ⟨ha, hh⟩
      cases d' with
      | nil =>
        exact (List.chain'_cons'.1 hd').1 '#' (by simp) ⟨by simp [hashB, ha], by simp [hashB]⟩
      | cons e d'' =>
        have he : e = '#' := by simpa using hh
        exact (List.chain'_cons'.1 hd').1 e (by simp) ⟨by simp [hashB, ha], by simp [hashB, he]⟩

/-! ### C8 stage C: the child-combinator substitution -/

/-- An all-whitespace string has no whitespace/`>` adjacency. -/
theorem allWsChain : ∀ m : Str, (∀ x ∈ m, pyIsSpace x = true) → noWsGt m := by
  intro m
  induction m with
  | nil => intro _; exact List.chain'_nil
  | cons a m' ih =>
    intro hall
    rw [noWsGt, List.chain'_cons']
    refine ⟨fun y hy => ?_, ih fun x hx => hall x (List.mem_cons_of_mem _ hx)⟩
    have hyw : pyIsSpace y = true := by
      apply hall
      cases m' with
      | nil => simp at hy
      | cons z zs =>
        have : z = y := by simpa using hy
        subst this
        exact List.mem_cons_of_mem _ (List.mem_cons_self _ _)
    constructor
    · rintro ⟨_, rfl⟩
      exact absurd hyw (by decide)
    · rintro ⟨rfl, _⟩
      exact absurd (hall '>' (List.mem_cons_self _ _)) (by decide)

/-- With an empty buffer and a non-whitespace head, the two scanner states
agree. -/
theorem gt_true_false (l : Str)
    (h : ∀ x, l.head? = some x → pyIsSpace x = false) :
    gtGo true [] l = gtGo false [] l := by
  cases l with
  | nil => rfl
  | cons c rest =>
    have hc : pyIsSpace c = false := h c rfl
    simp only [gtGo]
    by_cases hgt : c = '>'
    · subst hgt
      simp [hc]
    · simp [hc, hgt]

/-- The head after `gtGo true []` is never whitespace. -/
theorem ghTrue : ∀ (l : Str) (x : Char),
    (gtGo true [] l).head? = some x → pyIsSpace x = false := by
  intro l
  induction l with
  | nil => intro x h; simp [gtGo] at h
  | cons c rest ih =>
    intro x h
    rw [gtGo] at h
    split_ifs at h with h1 h2
    · exact ih x h
    · simp only [List.head?_cons, Option.some.injEq] at h
      subst h
      decide
    · simp only [List.head?_cons, Option.some.injEq] at h
      subst h
      exact Bool.not_eq_true _ ▸ h1

/-- With a nonempty buffer, the head of the output is the buffer's first
character or a `>`. -/
theorem gh2buf : ∀ (l buf : Str) (b₀ : Char), buf.getLast? = some b₀ →
    ∀ x, (gtGo false buf l).head? = some x → x = b₀ ∨ x = '>' := by
  intro l
  induction l with
  | nil =>
    intro buf b₀ hb x h
    left
    have : (gtGo false buf []).head? = buf.getLast? := by
      show buf.reverse.head? = buf.getLast?
      exact List.head?_reverse _
    rw [this, hb] at h
    simpa using h.symm
  | cons c rest ih =>
    intro buf b₀ hb x h
    rw [gtGo] at h
    split_ifs at h with h1 h2
    · refine ih (c :: buf) b₀ ?_ x h
      rw [lastq_cons]
      · exact hb
      · intro hnil; rw [hnil] at hb; simp at hb
    · simp only [List.head?_cons, Option.some.injEq] at h
      exact Or.inr h.symm
    · left
      cases hbr : buf.reverse with
      | nil =>
        have : buf = [] := by simpa using congrArg List.reverse hbr
        rw [this] at hb; simp at hb
      | cons u us =>
        rw [hbr, List.cons_append, List.head?_cons] at h
        have hu : buf.reverse.head? = some u := by rw [hbr]; rfl
        rw [List.head?_reverse, hb] at hu
        simp only [Option.some.injEq] at hu h
        rw [← h, hu]

/-- With an empty buffer, the head of the output is a `>` or the input
head. -/
theorem gh0 (l : Str) (x : Char) (h : (gtGo false [] l).head? = some x) :
    x = '>' ∨ l.head? = some x := by
  cases l with
  | nil => simp [gtGo] at h
  | cons c rest =>
    rw [gtGo] at h
    split_ifs at h with h1 h2
    · rcases gh2buf rest [c] c rfl x h with rfl | rfl
      · exact Or.inr rfl
      · exact Or.inl rfl
    · simp only [List.head?_cons, Option.some.injEq] at h
      exact Or.inl h.symm
    · simp only [List.reverse_nil, List.nil_append, List.head?_cons,
        Option.some.injEq] at h
      exact Or.inr (by simp [h])

/-- The scanner's output has no whitespace/`>` adjacency, in either state. -/
theorem gt_out_chain : ∀ l : Str,
    (∀ buf : Str, (∀ x ∈ buf, pyIsSpace x = true) → noWsGt (gtGo false buf l)) ∧
    noWsGt (gtGo true [] l) := by
  intro l
  induction l with
  | nil =>
    constructor
    · intro buf hbuf
      show noWsGt buf.reverse
      exact allWsChain _ fun x hx => hbuf x (List.mem_reverse.1 hx)
    · exact List.chain'_nil
  | cons c rest ih =>
    have hgtpair : ∀ y, (gtGo true [] rest).head? = some y →
        (¬(pyIsSpace '>' = true ∧ y = '>') ∧ ¬('>' = '>' ∧ pyIsSpace y = true)) := by
      intro y hy
      constructor
      · rintro ⟨hws, _⟩; exact absurd hws (by decide)
      · rintro ⟨_, hws⟩; rw [ghTrue rest y hy] at hws; cases hws
    have hcpair : ∀ (hc1 : pyIsSpace c = false) (hc2 : c ≠ '>') (y : Char),
        (¬(pyIsSpace c = true ∧ y = '>') ∧ ¬(c = '>' ∧ pyIsSpace y = true)) := by
      intro hc1 hc2 y
      constructor
      · rintro ⟨hws, _⟩; rw [hc1] at hws; cases hws
      · rintro ⟨heq, _⟩; exact hc2 heq
    constructor
    · intro buf hbuf
      rw [gtGo]
      split_ifs with h1 h2
      · refine ih.1 (c :: buf) fun x hx => ?_
        rcases List.mem_cons.1 hx with rfl | hx'
        · exact h1
        · exact hbuf x hx'
      · rw [noWsGt, List.chain'_cons']
        exact ⟨fun y hy => hgtpair y hy, ih.2⟩
      · rw [noWsGt, List.chain'_append]
        refine ⟨allWsChain _ fun x hx => hbuf x (List.mem_reverse.1 hx), ?_, ?_⟩
        · rw [List.chain'_cons']
          refine ⟨fun y _ => hcpair (Bool.not_eq_true _ ▸ h1) h2 y, ?_⟩
          exact ih.1 [] (by simp)
        · intro x hx y hy
          have hxw : pyIsSpace x = true := by
            apply hbuf
            apply List.mem_reverse.1
            have := List.mem_of_mem_getLast? hx
            exact this
          have hyc : c = y := by simpa using hy
          subst hyc
          constructor
          · rintro ⟨_, rfl⟩; exact h2 rfl
          · rintro ⟨rfl, _⟩; exact absurd hxw (by decide)
    · rw [gtGo]
      split_ifs with h1 h2
      · exact ih.2
      · rw [noWsGt, List.chain'_cons']
        exact ⟨fun y hy => hgtpair y hy, ih.2⟩
      · rw [noWsGt, List.chain'_cons']
        refine ⟨fun y _ => hcpair (Bool.not_eq_true _ ▸ h1) h2 y, ?_⟩
        exact ih.1 [] (by simp)

/-- The scanner is the identity on strings with no whitespace/`>`
adjacency (buffered form). -/
theorem gt_id : ∀ (l buf : Str), (∀ x ∈ buf, pyIsSpace x = true) →
    noWsGt (buf.reverse ++ l) → gtGo false buf l = buf.reverse ++ l := by
  intro l
  induction l with
  | nil => intro buf _ _; simp [gtGo]
  | cons c rest ih =>
    intro buf hbuf hch
    rw [gtGo]
    split_ifs with h1 h2
    · have hstep := ih (c :: buf)
        (fun x hx => by
          rcases List.mem_cons.1 hx with rfl | hx'
          · exact h1
          · exact hbuf x hx')
        (by
          rw [List.reverse_cons, List.append_assoc]
          exact hch)
      rw [hstep, List.reverse_cons, List.append_assoc]
      simp
    · subst h2
      have hbnil : buf = [] := by
        cases hb : buf with
        | nil => rfl
        | cons b bs =>
          exfalso
          rw [hb] at hch hbuf
          have hchb := (List.chain'_append.1 hch).2.2
          have hR := hchb b (by rw [List.getLast?_reverse]; rfl) '>' rfl
          exact hR.1 ⟨hbuf b (List.mem_cons_self _ _), rfl⟩
      subst hbnil
      simp only [List.reverse_nil, List.nil_append] at hch ⊢
      have hh : ∀ x, rest.head? = some x → pyIsSpace x = false := by
        intro x hx
        have hR := (List.chain'_cons'.1 hch).1 x hx
        cases hws : pyIsSpace x
        · rfl
        · exact absurd ⟨rfl, hws⟩ hR.2
      rw [gt_true_false rest hh]
      rw [ih [] (by simp) (by exact List.Chain'.tail hch)]
      simp
    · have hrest : gtGo false [] rest = rest := by
        have hc2 := (List.chain'_append.1 hch).2.1
        have := ih [] (by simp) (by exact List.Chain'.tail hc2)
        simpa using this
      rw [hrest]

/-- The scanner preserves pair-freeness for any class without `>`. -/
theorem gt_pres (P : Char → Bool) (hgtP : P '>' = false) :
    ∀ l : Str,
    (∀ buf : Str, (∀ x ∈ buf, pyIsSpace x = true) →
      noPair P (buf.reverse ++ l) → noPair P (gtGo false buf l)) ∧
    (noPair P l → noPair P (gtGo true [] l)) := by
  intro l
  induction l with
  | nil =>
    constructor
    · intro buf _ hch
      show noPair P buf.reverse
      rw [List.append_nil] at hch
      exact hch
    · intro _; exact List.chain'_nil
  | cons c rest ih =>
    constructor
    · intro buf hbuf hch
      rw [gtGo]
      split_ifs with h1 h2
      · apply ih.1 (c :: buf)
        · intro x hx
          rcases List.mem_cons.1 hx with rfl | hx'
          · exact h1
          · exact hbuf x hx'
        · rw [List.reverse_cons, List.append_assoc]
          exact hch
      · rw [noPair, List.chain'_cons']
        refine ⟨fun y hy hcon => absurd hcon.1 (by simp [hgtP]), ?_⟩
        exact ih.2 (List.Chain'.tail (List.chain'_append.1 hch).2.1)
      · rw [noPair, List.chain'_append]
        refine ⟨(List.chain'_append.1 hch).1, ?_, ?_⟩
        · rw [List.chain'_cons']
          constructor
          · intro y hy hcon
            rcases gh0 rest y hy with rfl | hy'
            · exact absurd hcon.2 (by simp [hgtP])
            · exact (List.chain'_cons'.1 (List.chain'_append.1 hch).2.1).1 y hy' hcon
          · apply ih.1 [] (by simp)
            simp only [List.reverse_nil, List.nil_append]
            exact List.Chain'.tail (List.chain'_append.1 hch).2.1
        · intro x hx y hy
          have hyc : c = y := by simpa using hy
          subst hyc
          exact (List.chain'_append.1 hch).2.2 x hx c rfl
    · intro hch
      rw [gtGo]
      split_ifs with h1 h2
      · exact ih.2 (List.Chain'.tail hch)
      · rw [noPair, List.chain'_cons']
        exact ⟨fun y hy hcon => absurd hcon.1 (by simp [hgtP]),
          ih.2 (List.Chain'.tail hch)⟩
      · rw [noPair, List.chain'_cons']
        constructor
        · intro y hy hcon
          rcases gh0 rest y hy with rfl | hy'
          · exact absurd hcon.2 (by simp [hgtP])
          · exact (List.chain'_cons'.1 hch).1 y hy' hcon
        · apply ih.1 [] (by simp)
          simp only [List.reverse_nil, List.nil_append]
          exact List.Chain'.tail hch

/-! ### C8 stage D: the whitespace-run substitution -/

/-- With a non-whitespace head the two whitespace-scanner states agree. -/
theorem ws_true_false (l : Str)
    (h : ∀ x, l.head? = some x → pyIsSpace x = false) :
    wsGo true l = wsGo false l := by
  cases l with
  | nil => rfl
  | cons c rest =>
    have hc : pyIsSpace c = false := h c rfl
    rw [wsGo, wsGo, if_neg (by simp [hc]), if_neg (by simp [hc])]

/-- The head of a `wsGo false` output is a space (when the input starts
with whitespace) or the unchanged input head. -/
theorem whf (l : Str) (x : Char) (h : (wsGo false l).head? = some x) :
    (x = ' ' ∧ ∃ c, l.head? = some c ∧ pyIsSpace c = true) ∨
    (l.head? = some x ∧ pyIsSpace x = false) := by
  cases l with
  | nil => simp [wsGo] at h
  | cons c rest =>
    rw [wsGo] at h
    split_ifs at h with h1
    · simp only [List.head?_cons, Option.some.injEq] at h
      exact Or.inl ⟨h.symm, c, rfl, h1⟩
    · simp only [List.head?_cons, Option.some.injEq] at h
      subst h
      exact Or.inr ⟨rfl, Bool.not_eq_true _ ▸ h1⟩

/-- The head produced by `wsGo true` is not whitespace and sits after a
whitespace run of the input. -/
theorem wht : ∀ (l : Str) (x : Char), (wsGo true l).head? = some x →
    pyIsSpace x = false ∧
    ∃ w rest₂, l = w ++ x :: rest₂ ∧ ∀ y ∈ w, pyIsSpace y = true := by
  intro l
  induction l with
  | nil => intro x h; simp [wsGo] at h
  | cons c rest ih =>
    intro x h
    rw [wsGo] at h
    split_ifs at h with h1
    · obtain ⟨hx, w, rest₂, heq, hw⟩ := ih x h
      refine ⟨hx, c :: w, rest₂, by rw [heq, List.cons_append], fun y hy => ?_⟩
      rcases List.mem_cons.1 hy with rfl | hy'
      · exact h1
      · exact hw y hy'
    · simp only [List.head?_cons, Option.some.injEq] at h
      subst h
      exact ⟨Bool.not_eq_true _ ▸ h1, [], rest, rfl, by simp⟩

/-- `wsGo false` is the identity on normalised strings: every whitespace
character is a single isolated space. -/
theorem ws_id : ∀ l : Str, (∀ c ∈ l, pyIsSpace c = true → c = ' ') →
    noPair pyIsSpace l → wsGo false l = l := by
  intro l
  induction l with
  | nil => intro _ _; rfl
  | cons c rest ih =>
    intro hsp hch
    rw [wsGo]
    split_ifs with h1
    · have hc : c = ' ' := hsp c (List.mem_cons_self _ _) h1
      subst hc
      have hh : ∀ x, rest.head? = some x → pyIsSpace x = false := by
        intro x hx
        cases hxs : pyIsSpace x
        · rfl
        · exact absurd ⟨h1, hxs⟩ ((List.chain'_cons'.1 hch).1 x hx)
      rw [ws_true_false rest hh,
        ih (fun y hy hys => hsp y (List.mem_cons_of_mem _ hy) hys)
          (List.Chain'.tail hch)]
    · rw [ih (fun y hy hys => hsp y (List.mem_cons_of_mem _ hy) hys)
        (List.Chain'.tail hch)]

/-- Every whitespace character of a `wsGo` output is a space. -/
theorem ws_out_sp : ∀ (l : Str) (b : Bool) (c : Char),
    c ∈ wsGo b l → pyIsSpace c = true → c = ' ' := by
  intro l
  induction l with
  | nil => intro b c h _; cases b <;> simp [wsGo] at h
  | cons a rest ih =>
    intro b c h hws
    cases b with
    | true =>
      rw [wsGo] at h
      split_ifs at h with h1
      · exact ih true c h hws
      · rcases List.mem_cons.1 h with rfl | h'
        · rw [hws] at h1; cases h1 rfl
        · exact ih false c h' hws
    | false =>
      rw [wsGo] at h
      split_ifs at h with h1
      · rcases List.mem_cons.1 h with rfl | h'
        · rfl
        · exact ih true c h' hws
      · rcases List.mem_cons.1 h with rfl | h'
        · rw [hws] at h1; cases h1 rfl
        · exact ih false c h' hws

/-- `wsGo` outputs have no two adjacent whitespace characters. -/
theorem ws_out_chain : ∀ l : Str,
    noPair pyIsSpace (wsGo false l) ∧ noPair pyIsSpace (wsGo true l) := by
  intro l
  induction l with
  | nil => exact ⟨List.chain'_nil, List.chain'_nil⟩
  | cons c rest ih =>
    have hpair : ∀ y, (wsGo true rest).head? = some y →
        ¬(pyIsSpace ' ' = true ∧ pyIsSpace y = true) := by
      intro y hy hcon
      rw [(wht rest y hy).1] at hcon
      exact absurd hcon.2 (by simp)
    constructor
    · rw [wsGo]
      split_ifs with h1
      · rw [noPair, List.chain'_cons']
        exact ⟨fun y hy => hpair y hy, ih.2⟩
      · rw [noPair, List.chain'_cons']
        refine ⟨fun y hy hcon => absurd hcon.1 (by simp [h1]), ih.1⟩
    · rw [wsGo]
      split_ifs with h1
      · exact ih.2
      · rw [noPair, List.chain'_cons']
        refine ⟨fun y hy hcon => absurd hcon.1 (by simp [h1]), ih.1⟩

/-- `wsGo` preserves the absence of whitespace/`>` adjacencies. -/
theorem ws_pres_wsgt : ∀ l : Str, noWsGt l →
    noWsGt (wsGo false l) ∧ noWsGt (wsGo true l) := by
  intro l
  induction l with
  | nil => intro _; exact ⟨List.chain'_nil, List.chain'_nil⟩
  | cons c rest ih =>
    intro hch
    have hct : noWsGt rest := List.Chain'.tail hch
    have htrue : pyIsSpace c = true →
        ∀ y, (wsGo true rest).head? = some y → y ≠ '>' := by
      intro h1 y hy
      obtain ⟨hyws, w, rest₂, heq, hwall⟩ := wht rest y hy
      cases w with
      | nil =>
        intro hgt
        subst hgt
        rw [heq] at hch
        exact ((List.chain'_cons'.1 hch).1 '>' (by simp)).1 ⟨h1, rfl⟩
      | cons e w' =>
        intro hgt
        subst hgt
        rw [heq] at hct
        have hbound := (List.chain'_append.1 (by
          rw [List.cons_append] at hct
          exact hct : List.Chain' _ ((e :: w') ++ '>' :: rest₂))).2.2
        have hlast : ∃ z, (e :: w').getLast? = some z := by
          cases hgl : (e :: w').getLast? with
          | none => simp at hgl
          | some z => exact ⟨z, rfl⟩
        obtain ⟨z, hz⟩ := hlast
        have hzw : pyIsSpace z = true :=
          hwall z (List.mem_of_mem_getLast? hz)
        exact (hbound z hz '>' rfl).1 ⟨hzw, rfl⟩
    constructor
    · rw [wsGo]
      split_ifs with h1
      · rw [noWsGt, List.chain'_cons']
        refine ⟨fun y hy => ?_, (ih hct).2⟩
        constructor
        · rintro ⟨_, rfl⟩
          exact htrue h1 '>' hy rfl
        · rintro ⟨habs, _⟩
          exact absurd habs (by decide)
      · rw [noWsGt, List.chain'_cons']
        refine ⟨fun y hy => ?_, (ih hct).1⟩
        rcases whf rest y hy with ⟨rfl, c₂, hc₂, hc₂ws⟩ | ⟨hy', _⟩
        · constructor
          · rintro ⟨habs, _⟩
            rw [habs] at h1
            exact h1 rfl
          · rintro ⟨rfl, _⟩
            exact ((List.chain'_cons'.1 hch).1 c₂ hc₂).2 ⟨rfl, hc₂ws⟩
        · exact (List.chain'_cons'.1 hch).1 y hy'
    · rw [wsGo]
      split_ifs with h1
      · exact (ih hct).2
      · rw [noWsGt, List.chain'_cons']
        refine ⟨fun y hy => ?_, (ih hct).1⟩
        rcases whf rest y hy with ⟨rfl, c₂, hc₂, hc₂ws⟩ | ⟨hy', _⟩
        · constructor
          · rintro ⟨habs, _⟩
            rw [habs] at h1
            exact h1 rfl
          · rintro ⟨rfl, _⟩
            exact ((List.chain'_cons'.1 hch).1 c₂ hc₂).2 ⟨rfl, hc₂ws⟩
        · exact (List.chain'_cons'.1 hch).1 y hy'

/-- `wsGo` preserves pair-freeness for any class without the space. -/
theorem ws_pres (P : Char → Bool) (hP : P ' ' = false) :
    ∀ l : Str, noPair P l → noPair P (wsGo false l) ∧ noPair P (wsGo true l) := by
  intro l
  induction l with
  | nil => intro _; exact ⟨List.chain'_nil, List.chain'_nil⟩
  | cons c rest ih =>
    intro hch
    have hct : noPair P rest := List.Chain'.tail hch
    constructor
    · rw [wsGo]
      split_ifs with h1
      · rw [noPair, List.chain'_cons']
        refine ⟨fun y hy hcon => absurd hcon.1 (by simp [hP]), (ih hct).2⟩
      · rw [noPair, List.chain'_cons']
        refine ⟨fun y hy hcon => ?_, (ih hct).1⟩
        rcases whf rest y hy with ⟨rfl, _, _, _⟩ | ⟨hy', _⟩
        · exact absurd hcon.2 (by simp [hP])
        · exact (List.chain'_cons'.1 hch).1 y hy' hcon
    · rw [wsGo]
      split_ifs with h1
      · exact (ih hct).2
      · rw [noPair, List.chain'_cons']
        refine ⟨fun y hy hcon => ?_, (ih hct).1⟩
        rcases whf rest y hy with ⟨rfl, _, _, _⟩ | ⟨hy', _⟩
        · exact absurd hcon.2 (by simp [hP])
        · exact (List.chain'_cons'.1 hch).1 y hy' hcon

/-! ### C8 stage E: stripping, head, and prefix lemmas -/

/-- A string is its right-strip followed by its trailing whitespace run. -/
theorem rstrip_decomp (l : Str) :
    l = rstripSpace l ++ (l.reverse.takeWhile pyIsSpace).reverse := by
  rw [rstripSpace, ← List.reverse_append, List.takeWhile_append_dropWhile,
    List.reverse_reverse]

/-- `Chain'` restricts to the right-strip of a string. -/
theorem chain_rstrip (R : Char → Char → Prop) (l : Str) (h : l.Chain' R) :
    (rstripSpace l).Chain' R := by
  rw [rstrip_decomp l] at h
  exact (List.chain'_append.1 h).1

/-- `Chain'` restricts to the `dropWhile` suffix. -/
theorem chain_dropWhile (R : Char → Char → Prop) (p : Char → Bool) (l : Str)
    (h : l.Chain' R) : (l.dropWhile p).Chain' R := by
  have h2 : (l.takeWhile p ++ l.dropWhile p).Chain' R := by
    rw [List.takeWhile_append_dropWhile]
    exact h
  exact (List.chain'_append.1 h2).2.1

/-- `Chain'` restricts to the strip of a string. -/
theorem chain_strip (R : Char → Char → Prop) (l : Str) (h : l.Chain' R) :
    (stripSpace l).Chain' R :=
  chain_rstrip R _ (chain_dropWhile R pyIsSpace l h)

/-- The head of the right-strip is the head of the string. -/
theorem rstrip_head (l : Str) (x : Char) (h : (rstripSpace l).head? = some x) :
    l.head? = some x := by
  have hd := rstrip_decomp l
  cases hr : rstripSpace l with
  | nil => rw [hr] at h; simp at h
  | cons c t =>
    rw [hr] at h hd
    simp only [List.head?_cons, Option.some.injEq] at h
    subst h
    rw [hd]
    rfl

/-- The head of a stripped string is never whitespace. -/
theorem strip_headNW (l : Str) (x : Char) (h : (stripSpace l).head? = some x) :
    pyIsSpace x = false := by
  rw [stripSpace] at h
  exact head_dropWhile pyIsSpace _ _ (rstrip_head _ _ h)

/-- `dropWhile` is the identity when the head does not satisfy the test. -/
theorem dropWhile_id_hd (l : Str)
    (h : ∀ x, l.head? = some x → pyIsSpace x = false) :
    l.dropWhile pyIsSpace = l := by
  cases l with
  | nil => rfl
  | cons c t => exact List.dropWhile_cons_of_neg (by simp [h c rfl])

/-- `stripSpace` is the identity on strings with non-whitespace ends. -/
theorem strip_id (l : Str) (h1 : ∀ x, l.head? = some x → pyIsSpace x = false)
    (h2 : lastNotWs l) : stripSpace l = l := by
  rw [stripSpace, dropWhile_id_hd l h1, rstrip_id _ h2]

/-- A stripped string never ends in whitespace. -/
theorem strip_lastNW (l : Str) : lastNotWs (stripSpace l) :=
  rstrip_lastNW _

/-- A string containing a non-whitespace character is not an
all-whitespace line. -/
theorem notEmptyLine (l : Str) (c : Char) (hc : c ∈ l)
    (hcw : pyIsSpace c = false) : isEmptyLine l = false := by
  rw [isEmptyLine]
  cases h : l.all pyIsSpace with
  | false => rfl
  | true => exact absurd (List.all_eq_true.1 h c hc) (by simp [hcw])

/-- A nonempty string with a non-whitespace last character is not an
all-whitespace line. -/
theorem notEmptyLine_last (l : Str) (hne : l ≠ []) (h : lastNotWs l) :
    isEmptyLine l = false := by
  obtain ⟨x, hx⟩ := Option.isSome_iff_exists.1 (List.getLast?_isSome.2 hne)
  exact notEmptyLine l x (List.mem_of_mem_getLast? hx) (h x hx)

/-- Separator-pair-freeness implies caret-pair-freeness. -/
theorem noPair_caret_of_sep (l : Str) (h : noPair sepC l) : noPair caretB l := by
  refine List.Chain'.imp ?_ h
  intro a b hR hcon
  apply hR
  constructor
  · have ha : a = '^' := by simpa [caretB] using hcon.1
    simp [sepC, ha]
  · have hb : b = '^' := by simpa [caretB] using hcon.2
    simp [sepC, hb]

/-- Assembling an element-hiding rule preserves pair-freeness for classes
without `#`. -/
theorem noPair_hh (P : Char → Bool) (hP : P '#' = false) (d s : Str)
    (hd : noPair P d) (hs : noPair P s) :
    noPair P (d ++ '#' :: '#' :: s) := by
  rw [noPair, List.chain'_append]
  refine ⟨hd, ?_, ?_⟩
  · rw [List.chain'_cons']
    refine ⟨fun y hy hcon => absurd hcon.1 (by simp [hP]), ?_⟩
    rw [List.chain'_cons']
    exact ⟨fun y hy hcon => absurd hcon.1 (by simp [hP]), hs⟩
  · intro x hx y hy
    have hyh : '#' = y := by simpa using hy
    subst hyh
    intro hcon
    exact absurd hcon.2 (by simp [hP])

/-- `lastNotWs` only depends on the appended tail when it is nonempty. -/
theorem lastNotWs_append (u v : Str) (hv : v ≠ []) (h : lastNotWs v) :
    lastNotWs (u ++ v) := by
  intro x hx
  rw [List.getLast?_append_of_ne_nil _ hv] at hx
  exact h x hx

/-- The reconstructed element-hiding rule never ends in whitespace when
its selector does not. -/
theorem lastNW_hh (d s : Str) (hs : lastNotWs s) :
    lastNotWs (d ++ '#' :: '#' :: s) := by
  apply lastNotWs_append _ _ (by simp)
  cases s with
  | nil =>
    intro x hx
    simp only [List.getLast?_cons_cons, List.getLast?_singleton,
      Option.some.injEq] at hx
    subst hx
    decide
  | cons a t =>
    intro x hx
    rw [lastq_cons _ _ (by simp), lastq_cons _ _ (by simp)] at hx
    exact hs x hx

/-- `startsBB` only depends on the part before the `##`. -/
theorem startsBB_hh (d s t : Str) :
    startsBB (d ++ '#' :: '#' :: s) = startsBB (d ++ '#' :: '#' :: t) := by
  cases d with
  | nil => rfl
  | cons a d' =>
    cases d' with
    | nil => rfl
    | cons b d'' => rfl

/-- A `||` prefix survives `domainSub1F`. -/
theorem ds1_bb : ∀ (n : Nat) (s : Str), startsBB s = true →
    startsBB (domainSub1F n s) = true := by
  intro n s hs
  cases n with
  | zero => simpa [domainSub1F] using hs
  | succ m =>
    cases s with
    | nil => simp [startsBB] at hs
    | cons c rest =>
      rw [startsBB] at hs
      simp only [List.head?_cons, List.tail_cons, Bool.and_eq_true,
        decide_eq_true_eq, Option.some.injEq] at hs
      obtain ⟨hc, hr⟩ := hs
      subst hc
      rw [domainSub1F, if_pos ⟨rfl, hr⟩]
      split
      · simp [startsBB]
      · simp [startsBB]

/-- A `||` prefix survives `domainSub2`. -/
theorem ds2_bb (s : Str) (hs : startsBB s = true) :
    startsBB (domainSub2 s) = true := by
  cases s with
  | nil => simp [startsBB] at hs
  | cons c rest =>
    rw [startsBB] at hs
    simp only [List.head?_cons, List.tail_cons, Bool.and_eq_true,
      decide_eq_true_eq, Option.some.injEq] at hs
    obtain ⟨hc, hr⟩ := hs
    subst hc
    cases rest with
    | nil => simp at hr
    | cons b rest2 =>
      simp only [List.head?_cons, Option.some.injEq] at hr
      subst hr
      rw [ds2_cons_generic _ _ (fun c1 r1 h1 _ => absurd h1 (by decide)),
        ds2_cons_generic _ _ (fun c1 r1 h1 _ => absurd h1 (by decide))]
      simp [startsBB]

/-- The `||` branch of the pipeline produces a `||` rule. -/
theorem pipe_bb (r : Str)
    (h : startsBB (csep (cast (ccar (rstripSpace r)))) = true) :
    startsBB (pipeRule r) = true := by
  rw [pipeRule, if_pos h, optimize_domain_rule, domainSub1]
  exact ds2_bb _ (ds1_bb _ _ h)

/-- `startsBB` forces the head to be a bar. -/
theorem bb_head (l : Str) (h : startsBB l = true) : l.head? = some '|' := by
  cases l with
  | nil => simp [startsBB] at h
  | cons c rest =>
    rw [startsBB] at h
    simp only [List.head?_cons, List.tail_cons, Bool.and_eq_true,
      decide_eq_true_eq, Option.some.injEq] at h
    simp [h.1]

/-- The head of the rewritten rule is the input head or a comma. -/
theorem r4_head (r : Str) (x : Char)
    (h : (csep (cast (ccar (rstripSpace r)))).head? = some x) :
    x = ',' ∨ r.head? = some x := by
  rcases csep_head_false _ _ h with h1 | h1
  · exact Or.inl h1
  · rw [cast_head, ccar_head] at h1
    exact Or.inr (rstrip_head _ _ h1)

/-- The head of any pipeline output is a comma, hash, bar, or the input
head. -/
theorem pipe_head (r : Str) (x : Char) (h : (pipeRule r).head? = some x) :
    x = ',' ∨ x = '#' ∨ x = '|' ∨ r.head? = some x := by
  rw [pipeRule] at h
  split_ifs at h with hA hB
  · have hbbp : startsBB (optimize_domain_rule
        (csep (cast (ccar (rstripSpace r))))) = true := by
      rw [optimize_domain_rule, domainSub1]
      exact ds2_bb _ (ds1_bb _ _ hA)
    rw [bb_head _ hbbp] at h
    simp only [Option.some.injEq] at h
    exact Or.inr (Or.inr (Or.inl h.symm))
  · cases hsp : splitHashHash (csep (cast (ccar (rstripSpace r)))) with
    | none => rw [hsp] at hB; simp at hB
    | some p =>
      obtain ⟨d, sel⟩ := p
      have hEH : optimize_element_hiding_rule
          (csep (cast (ccar (rstripSpace r)))) =
          d ++ '#' :: '#' :: stripSpace (wsSub (gtSub sel)) := by
        rw [optimize_element_hiding_rule, hsp]
      rw [hEH] at h
      cases d with
      | nil =>
        simp only [List.nil_append, List.head?_cons, Option.some.injEq] at h
        exact Or.inr (Or.inl h.symm)
      | cons e d' =>
        simp only [List.cons_append, List.head?_cons, Option.some.injEq] at h
        subst h
        have hr4 := splitHH_eq _ _ _ hsp
        have hh : (csep (cast (ccar (rstripSpace r)))).head? = some e := by
          rw [hr4]; rfl
        rcases r4_head r e hh with h1 | h1
        · exact Or.inl h1
        · exact Or.inr (Or.inr (Or.inr h1))
  · rcases r4_head r x h with h1 | h1
    · exact Or.inl h1
    · exact Or.inr (Or.inr (Or.inr h1))

/-- A rule starting with `!` is a comment. -/
theorem isComment_head (l : Str) (h : l.head? = some '!') :
    isComment l = true := by
  cases l with
  | nil => simp at h
  | cons c t =>
    simp only [List.head?_cons, Option.some.injEq] at h
    subst h
    rfl

/-- The pipeline maps ASCII rules to ASCII rules. -/
theorem pipe_ascii (r : Str) (h : hasInvalid r = false) :
    hasInvalid (pipeRule r) = false := by
  rw [hasInvalid]
  cases hx : (pipeRule r).any (fun c => decide (127 < c.toNat)) with
  | false => rfl
  | true =>
    obtain ⟨c, hc, hcbig⟩ := List.any_eq_true.1 hx
    rcases mem_pipe r c hc with hm | hm | hm | hm | hm
    · rw [hasInvalid] at h
      exact absurd hcbig (by simpa using List.any_eq_false.1 h c hm)
    · subst hm; exact absurd hcbig (by decide)
    · subst hm; exact absurd hcbig (by decide)
    · subst hm; exact absurd hcbig (by decide)
    · subst hm; exact absurd hcbig (by decide)

/-! ### C8 stage F: the per-rule fixpoint and idempotence -/

/-- `csep` is the identity on separator-pair-free strings. -/
theorem csep_fix (l : Str) (h : noPair sepC l) : csep l = l := csep_id l h

/-- A rule that became a comment was one: comments start with `!`. -/
theorem comment_head (l : Str) (h : isComment l = true) :
    l.head? = some '!' := by
  rw [isComment.eq_def] at h
  split at h
  · rfl
  · exact absurd h (by simp)

/-- On a rule whose pipeline output does not start with `||`, the
substitution pipeline is idempotent, and its output never ends in
whitespace. -/
theorem pipe_fix (r : Str) (hbb : startsBB (pipeRule r) = false) :
    pipeRule (pipeRule r) = pipeRule r ∧ lastNotWs (pipeRule r) := by
  by_cases hA : startsBB (csep (cast (ccar (rstripSpace r)))) = true
  · rw [pipe_bb r hA] at hbb
    exact absurd hbb (by decide)
  · have hA' : startsBB (csep (cast (ccar (rstripSpace r)))) = false := by
      cases hAx : startsBB (csep (cast (ccar (rstripSpace r)))) with
      | false => rfl
      | true => exact absurd hAx hA
    have hlast : lastNotWs (csep (cast (ccar (rstripSpace r)))) := by
      apply csep_lastNW
      intro x hx
      rw [cast_last, ccar_last] at hx
      exact rstrip_lastNW r x hx
    have hsep : noPair sepC (csep (cast (ccar (rstripSpace r)))) :=
      csep_chain _ false
    have hstar : noPair starB (csep (cast (ccar (rstripSpace r)))) :=
      csep_pres starB (by decide) _ false (cast_chain _)
    have hcar : noPair caretB (csep (cast (ccar (rstripSpace r)))) :=
      noPair_caret_of_sep _ hsep
    by_cases hB : (splitHashHash (csep (cast (ccar (rstripSpace r))))).isSome = true
    · obtain ⟨p, hp⟩ := Option.isSome_iff_exists.1 hB
      obtain ⟨d, sel⟩ := p
      have hpipe : pipeRule r =
          d ++ '#' :: '#' :: stripSpace (wsSub (gtSub sel)) := by
        rw [pipeRule, if_neg hA, if_pos hB, optimize_element_hiding_rule, hp]
      have hr4 := splitHH_eq _ _ _ hp
      have hdfree := splitHH_d _ _ _ hp
      rw [hr4] at hsep hstar hcar
      have hsep_d : noPair sepC d := (List.chain'_append.1 hsep).1
      have hstar_d : noPair starB d := (List.chain'_append.1 hstar).1
      have hcar_d : noPair caretB d := (List.chain'_append.1 hcar).1
      have hsep_sel : noPair sepC sel :=
        List.Chain'.tail (List.Chain'.tail (List.chain'_append.1 hsep).2.1)
      have hstar_sel : noPair starB sel :=
        List.Chain'.tail (List.Chain'.tail (List.chain'_append.1 hstar).2.1)
      have hcar_sel : noPair caretB sel :=
        List.Chain'.tail (List.Chain'.tail (List.chain'_append.1 hcar).2.1)
      have hsep2 : noPair sepC (stripSpace (wsSub (gtSub sel))) :=
        chain_strip _ _ ((ws_pres sepC (by decide) _
          ((gt_pres sepC (by decide) sel).1 [] (by simp) hsep_sel)).1)
      have hstar2 : noPair starB (stripSpace (wsSub (gtSub sel))) :=
        chain_strip _ _ ((ws_pres starB (by decide) _
          ((gt_pres starB (by decide) sel).1 [] (by simp) hstar_sel)).1)
      have hcar2 : noPair caretB (stripSpace (wsSub (gtSub sel))) :=
        chain_strip _ _ ((ws_pres caretB (by decide) _
          ((gt_pres caretB (by decide) sel).1 [] (by simp) hcar_sel)).1)
      have hwsgt : noWsGt (stripSpace (wsSub (gtSub sel))) :=
        chain_strip _ _
          ((ws_pres_wsgt (gtSub sel) ((gt_out_chain sel).1 [] (by simp))).1)
      have hsp_all : ∀ c ∈ stripSpace (wsSub (gtSub sel)),
          pyIsSpace c = true → c = ' ' := fun c hc =>
        ws_out_sp (gtSub sel) false c (mem_strip _ _ hc)
      have hsp_chain : noPair pyIsSpace (stripSpace (wsSub (gtSub sel))) :=
        chain_strip _ _ ((ws_out_chain (gtSub sel)).1)
      have hlast2 : lastNotWs
          (d ++ '#' :: '#' :: stripSpace (wsSub (gtSub sel))) :=
        lastNW_hh _ _ (strip_lastNW _)
      have hgt2 : gtSub (stripSpace (wsSub (gtSub sel))) =
          stripSpace (wsSub (gtSub sel)) := by
        have hid := gt_id (stripSpace (wsSub (gtSub sel))) [] (by simp)
          (by simpa using hwsgt)
        simpa using hid
      have hws2 : wsSub (stripSpace (wsSub (gtSub sel))) =
          stripSpace (wsSub (gtSub sel)) :=
        ws_id _ hsp_all hsp_chain
      have hst2 : stripSpace (stripSpace (wsSub (gtSub sel))) =
          stripSpace (wsSub (gtSub sel)) :=
        strip_id _ (fun x hx => strip_headNW _ x hx) (strip_lastNW _)
      have hsepR : noPair sepC
          (d ++ '#' :: '#' :: stripSpace (wsSub (gtSub sel))) :=
        noPair_hh sepC (by decide) _ _ hsep_d hsep2
      have hstarR : noPair starB
          (d ++ '#' :: '#' :: stripSpace (wsSub (gtSub sel))) :=
        noPair_hh starB (by decide) _ _ hstar_d hstar2
      have hcarR : noPair caretB
          (d ++ '#' :: '#' :: stripSpace (wsSub (gtSub sel))) :=
        noPair_hh caretB (by decide) _ _ hcar_d hcar2
      have hbb2 : startsBB
          (d ++ '#' :: '#' :: stripSpace (wsSub (gtSub sel))) = false := by
        rw [startsBB_hh d _ sel, ← hr4]
        exact hA'
      have hss : splitHashHash
          (d ++ '#' :: '#' :: stripSpace (wsSub (gtSub sel))) =
          some (d, stripSpace (wsSub (gtSub sel))) :=
        splitHH_reassemble d _ hdfree
      refine ⟨?_, ?_⟩
      · rw [hpipe, pipeRule, rstrip_id _ hlast2, ccar_id _ hcarR,
          cast_id _ hstarR, csep_fix _ hsepR]
        rw [if_neg (by simp [hbb2]), if_pos (by simp [hss]),
          optimize_element_hiding_rule, hss]
        simp only [hgt2, hws2, hst2]
      · rw [hpipe]
        exact hlast2
    · have hpipe : pipeRule r = csep (cast (ccar (rstripSpace r))) := by
        rw [pipeRule, if_neg hA, if_neg hB]
      refine ⟨?_, ?_⟩
      · rw [hpipe, pipeRule, rstrip_id _ hlast, ccar_id _ hcar,
          cast_id _ hstar, csep_fix _ hsep]
        rw [if_neg hA, if_neg hB]
      · rw [hpipe]
        exact hlast

/-- A successfully optimised rule that does not start with `||` is a
fixed point of the per-rule optimiser. -/
theorem opt_fix (r r2 : Str) (h : optimize_rule r = .ok (some r2))
    (hbb : startsBB r2 = false) : optimize_rule r2 = .ok (some r2) := by
  obtain ⟨hcom, _, hinv, hre, hne⟩ := opt_rule_some r r2 h
  subst hre
  obtain ⟨hfix, hlast⟩ := pipe_fix r hbb
  have hcom2 : isComment (pipeRule r) = false := by
    cases hc : isComment (pipeRule r) with
    | false => rfl
    | true =>
      rcases pipe_head r '!' (comment_head _ hc) with h1 | h1 | h1 | h1
      · exact absurd h1 (by decide)
      · exact absurd h1 (by decide)
      · exact absurd h1 (by decide)
      · exact absurd (isComment_head r h1) (by simp [hcom])
  have hemp2 : isEmptyLine (pipeRule r) = false := notEmptyLine_last _ hne hlast
  have hinv2 : hasInvalid (pipeRule r) = false := pipe_ascii r hinv
  rw [optimize_rule, if_neg (by simp [hcom2, hemp2]), if_neg (by simp [hinv2]),
    hfix, if_neg hne]

/-- The accumulation loop is the identity on a duplicate-free list of
fixed points disjoint from the seen set. -/
theorem optGo_id : ∀ (ys seen : List Str), ys.Nodup →
    (∀ x ∈ ys, optimize_rule x = .ok (some x)) →
    (∀ x ∈ ys, x ∉ seen) →
    optRulesGo ys seen = (ys, 0) := by
  intro ys
  induction ys with
  | nil => intro seen _ _ _; rfl
  | cons y ys ih =>
    intro seen hnd hfix hdis
    simp only [optRulesGo, hfix y (List.mem_cons_self _ _)]
    rw [if_neg (hdis y (List.mem_cons_self _ _))]
    rw [ih (y :: seen) (List.nodup_cons.1 hnd).2
      (fun x hx => hfix x (List.mem_cons_of_mem _ hx))
      (fun x hx => by
        simp only [List.mem_cons, not_or]
        exact ⟨fun hxy => (List.nodup_cons.1 hnd).1 (hxy ▸ hx),
          hdis x (List.mem_cons_of_mem _ hx)⟩)]

/-- C8 counterexample: the optimizer is not idempotent.  On the single
rule `||a*.B*.C` the first pass rewrites only the rightmost `*.` of the
domain part (`re.sub` does not rescan its own replacement), so a second
pass still finds a `*.` to rewrite and the output changes. -/
theorem c8_counterexample :
    optimize_rules (optimize_rules [("||a*.B*.C").toList]) ≠
      optimize_rules [("||a*.B*.C").toList] := by
  decide

/-- C8 (amended): the optimizer is idempotent on every input whose output
contains no `||`-prefixed rule: each surviving rule is then a fixed point
of the per-rule pass, the output list has no duplicates, and a second run
returns it unchanged (idempotence can only fail through the domain-rule
substitutions). -/
theorem c8_amended (rules : List Str)
    (hbb : ∀ x ∈ optimize_rules rules, startsBB x = false) :
    optimize_rules (optimize_rules rules) = optimize_rules rules := by
  have hinv := optGo_inv rules []
  conv_lhs => rw [optimize_rules]
  rw [optGo_id (optimize_rules rules) [] hinv.1
    (fun x hx => by
      obtain ⟨_, r, hr, hopt⟩ := hinv.2 x hx
      exact opt_fix r x hopt (hbb x hx))
    (fun x _ => List.not_mem_nil x)]

/-- Witness for C8 at a concrete element-hiding and separator-collapse
input. -/
theorem c8_witness :
    (∀ x ∈ optimize_rules [("a##p  >  q").toList, ("x^^,y").toList],
      startsBB x = false) ∧
    optimize_rules (optimize_rules
        [("a##p  >  q").toList, ("x^^,y").toList]) =
      optimize_rules [("a##p  >  q").toList, ("x^^,y").toList] :=
  ⟨by decide, c8_amended _ (by decide)⟩

/-- Witness for C10 at a concrete non-ASCII rule (warning counted) and at
a concrete all-whitespace non-ASCII rule, a no-break space, which the
empty check silently skips before the non-ASCII check with no warning. -/
theorem c10_witness :
    hasInvalid (("héllo").toList) = true ∧
    optimize_rules [("||a^").toList, ("héllo").toList, ("||b^").toList] =
      optimize_rules [("||a^").toList, ("||b^").toList] ∧
    optimizeWarnings [("||a^").toList, ("héllo").toList, ("||b^").toList] =
      optimizeWarnings [("||a^").toList, ("||b^").toList] + 1 ∧
    hasInvalid (("\u00A0").toList) = true ∧
    isEmptyLine (("\u00A0").toList) = true ∧
    optimizeWarnings [("\u00A0").toList] = optimizeWarnings [] :=
  ⟨by decide,
    (c10_total_ascii [("||a^").toList] [("||b^").toList] [] _ (by decide)).1,
    (c10_total_ascii [("||a^").toList] [("||b^").toList] [] _ (by decide)).2.1
      (by decide),
    by decide, by decide,
    (c10_total_ascii [] [] [] (("\u00A0").toList) (by decide)).2.2.1
      (by decide)⟩

end UBlock

